import Mathlib

/-!
Verification of the Auralyn audio-engine core (`src-tauri/src/audio_engine/` and
`src-tauri/src/vst_host/instance.rs`) against its natural-language specification.

Shallow embedding conventions:
* Rust `f32`/`f64` sample and gain arithmetic is modelled by exact rationals `ℚ`
  (the claims under scrutiny are data-flow / algebraic claims, not rounding claims);
  float literals are translated exactly (`0.005 = 1/200`, `0.0001 = 1/10000`,
  `0.6 = 3/5`).
* `HashMap` / `HashSet` are modelled by association lists with insert-replace
  semantics, `Vec` by `List`.
* Rust strings are modelled by `String` (for ids/paths) or `List Char`
  (where per-character normalisation matters).
* FFI calls into the native VST3 module (`VstInstance::load`,
  `prepare_processing`, `create_processor`, the vtable `process` call) are
  external to the repository; they appear as oracle parameters to the embedded
  functions, never as stubs of repository logic.

The file is organised as definitions first, then the proofs.
-/

namespace Auralyn

/-! ## Definitions -/

/-! ### Basic helpers -/

/-- Saturating conversion to `u32` (`try_into().unwrap_or(u32::MAX)`). -/
def sat32 (n : ℕ) : ℕ := min n (2 ^ 32 - 1)

/-- Indexed map, `mapWithIndexFrom f i [x₀, x₁, …] = [f i x₀, f (i+1) x₁, …]`. -/
def mapWithIndexFrom (f : ℕ → α → α) : ℕ → List α → List α
  | _, [] => []
  | i, x :: xs => f i x :: mapWithIndexFrom f (i + 1) xs

/-- Indexed map starting at index 0. -/
def mapWithIndex (f : ℕ → α → α) (l : List α) : List α := mapWithIndexFrom f 0 l

/-- Association-list removal (all entries with the given key). -/
def removeKey [DecidableEq κ] (k : κ) (l : List (κ × α)) : List (κ × α) :=
  l.filter (fun p => p.1 ≠ k)

/-- `HashMap::insert`: replaces any previous binding of the key. -/
def insertKey [DecidableEq κ] (k : κ) (v : α) (l : List (κ × α)) : List (κ × α) :=
  (k, v) :: removeKey k l

/-- Association-list lookup (first binding of the key). -/
def lookupKey [DecidableEq κ] (k : κ) : List (κ × α) → Option α
  | [] => none
  | (k', v) :: rest => if k' = k then some v else lookupKey k rest

/-! ### Gain smoother (core.rs lines 92–127)

`struct Smoother { current: f32, target: f32, coeff: f32 }`, with
`next()` snapping to the target once `|current - target| < 0.0001` and
otherwise moving by `coeff = 0.005` of the remaining distance. -/

structure Smoother where
  current : ℚ
  target : ℚ
  coeff : ℚ
deriving Repr, DecidableEq

/-- `Smoother::new` -/
def Smoother.new (initial_value : ℚ) : Smoother :=
  { current := initial_value, target := initial_value, coeff := 1 / 200 }

/-- `Smoother::new_ramp` -/
def Smoother.new_ramp (start stop : ℚ) : Smoother :=
  { current := start, target := stop, coeff := 1 / 200 }

/-- `Smoother::set_target` -/
def Smoother.set_target (s : Smoother) (t : ℚ) : Smoother := { s with target := t }

/-- `Smoother::next`: returns the updated state and the emitted sample. -/
def Smoother.next (s : Smoother) : Smoother × ℚ :=
  if |s.current - s.target| < 1 / 10000 then
    ({ s with current := s.target }, s.target)
  else
    let c := s.current + (s.target - s.current) * s.coeff
    ({ s with current := c }, c)

/-- Repeatedly calling `next`, keeping only the state. -/
def Smoother.iter (s : Smoother) : ℕ → Smoother
  | 0 => s
  | n + 1 => (iter s n).next.1

/-! ### Noise-reduction mode normalisation (core.rs lines 131–147) -/

/-- ASCII lower-casing of a single character (`u8::to_ascii_lowercase`). -/
def asciiLowerChar (c : Char) : Char :=
  if 'A' ≤ c ∧ c ≤ 'Z' then Char.ofNat (c.toNat + 32) else c

/-- Whitespace predicate used by `str::trim`: Rust's `char::is_whitespace`,
i.e. the Unicode White_Space property — U+0009–U+000D (tab, LF, VT, FF, CR),
space, U+0085 (NEL), U+00A0 (NBSP), U+1680 (Ogham space mark),
U+2000–U+200A (typographic spaces), U+2028/U+2029 (line/paragraph separator),
U+202F, U+205F, and U+3000 (ideographic space). -/
def isWsChar (c : Char) : Bool :=
  (0x9 ≤ c.toNat && c.toNat ≤ 0xD) || c.toNat = 0x20 || c.toNat = 0x85 ||
  c.toNat = 0xA0 || c.toNat = 0x1680 ||
  (0x2000 ≤ c.toNat && c.toNat ≤ 0x200A) || c.toNat = 0x2028 ||
  c.toNat = 0x2029 || c.toNat = 0x202F || c.toNat = 0x205F || c.toNat = 0x3000

/-- `str::trim` on a character list: drop whitespace at both ends. -/
def trimChars (l : List Char) : List Char :=
  ((l.dropWhile isWsChar).reverse.dropWhile isWsChar).reverse

def NOISE_REDUCTION_MODE_LOW : List Char := ['l', 'o', 'w']

def NOISE_REDUCTION_MODE_HIGH : List Char := ['h', 'i', 'g', 'h']

/-- `normalize_noise_reduction_mode` (core.rs 134–139): trim, ASCII-lowercase,
compare against `"high"`; anything else maps to `"low"`. -/
def normalize_noise_reduction_mode (mode : Option (List Char)) : List Char :=
  match mode.map (fun m => (trimChars m).map asciiLowerChar) with
  | some m =>
      if m = NOISE_REDUCTION_MODE_HIGH then NOISE_REDUCTION_MODE_HIGH
      else NOISE_REDUCTION_MODE_LOW
  | none => NOISE_REDUCTION_MODE_LOW

/-- `noise_reduction_mix_from_mode` (core.rs 141–147). -/
def noise_reduction_mix_from_mode (mode : List Char) : ℚ :=
  if mode = NOISE_REDUCTION_MODE_HIGH then 1 else 3 / 5

/-- `Command::SetNoiseReduction` handling (core.rs 764–773): the engine stores the
normalised mode and forwards `(active, mix)` to the audio thread; there is no
error path. -/
def setNoiseReductionCmd (active : Bool) (mode : Option (List Char)) :
    List Char × Bool × ℚ :=
  let normalized_mode := normalize_noise_reduction_mode mode
  (normalized_mode, active, noise_reduction_mix_from_mode normalized_mode)

/-! ### Plugin manager (plugins.rs)

`VstInstance` is the engine-facing ownership record of one loaded native
plugin; its native pointers live behind the FFI boundary and are irrelevant to
the bookkeeping claims, so only the engine-visible fields are modelled. The
`active_flag` is an `Arc<AtomicBool>` shared with the `VstProcessor` handed to
the audio thread. -/

def MAX_PLUGINS : ℕ := 32

structure VstInstance where
  id : String
  name : String
  path : String
  active_flag : Bool
  needs_deferred : Bool
  library : String
deriving Repr, DecidableEq

/-- `burned_library_key` (plugins.rs 10–19), Windows branch:
`path.to_ascii_lowercase()`. -/
def burned_library_key (path : String) : String :=
  ⟨path.data.map asciiLowerChar⟩

structure PluginManager where
  plugins : List (String × VstInstance)
  order : List String
  pending_init : List String
  rt_index_by_id : List (String × ℕ)
  id_by_rt_index : List (Option String)
  pending_drop_by_index : List (ℕ × VstInstance)
  muted : List String
  bypassed : List String
  gains : List (String × ℚ)
  burned_libraries : List String
  burned_library_keys : List String
deriving Repr, DecidableEq

/-- `PluginManager::new` -/
def PluginManager.new : PluginManager :=
  { plugins := [], order := [], pending_init := [], rt_index_by_id := [],
    id_by_rt_index := List.replicate MAX_PLUGINS none,
    pending_drop_by_index := [], muted := [], bypassed := [], gains := [],
    burned_libraries := [], burned_library_keys := [] }

/-- First free (`None`) slot in `id_by_rt_index`
(`.iter().enumerate().find(|(_, v)| v.is_none())`). -/
def findFreeSlot : List (Option String) → Option ℕ
  | [] => none
  | x :: rest => if x.isNone then some 0 else (findFreeSlot rest).map (· + 1)

/-- `PluginManager::alloc_rt_index` (plugins.rs 81–104). Returns the possibly
mutated manager (mutation only happens on success) and the result. -/
def PluginManager.alloc_rt_index (m : PluginManager) (id : String) :
    PluginManager × Except String ℕ :=
  match lookupKey id m.rt_index_by_id with
  | some idx => (m, .ok idx)
  | none =>
    match findFreeSlot m.id_by_rt_index with
    | none => (m, .error "Plugin limit reached (MAX_PLUGINS=32)")
    | some index =>
      if index < 256 then
        ({ m with id_by_rt_index := m.id_by_rt_index.set index (some id),
                  rt_index_by_id := insertKey id index m.rt_index_by_id },
         .ok index)
      else (m, .error "Internal error: rt index overflow")

/-- `PluginManager::rt_index_of` -/
def PluginManager.rt_index_of (m : PluginManager) (id : String) : Option ℕ :=
  lookupKey id m.rt_index_by_id

/-- `PluginManager::free_rt_index` (plugins.rs 110–118). -/
def PluginManager.free_rt_index (m : PluginManager) (id : String) : PluginManager :=
  match lookupKey id m.rt_index_by_id with
  | none => m
  | some idx =>
      { m with rt_index_by_id := removeKey id m.rt_index_by_id,
               id_by_rt_index :=
                 if idx < m.id_by_rt_index.length then
                   m.id_by_rt_index.set idx none
                 else m.id_by_rt_index }

/-- `PluginManager::load_plugin` (plugins.rs 120–156). `VstInstance::load(path)`
is an FFI call; its successful result is the `instance` argument.
`prepare_processing`/`create_processor` are FFI too: `created` stands for the
`create_processor()` result used when the engine is running (the processor is
opaque at this level). -/
def PluginManager.load_plugin (m : PluginManager) (inst : VstInstance)
    (engine_running : Bool) (created : Option Unit) :
    PluginManager × Except String (String × String × ℕ × Option Unit) :=
  let id := inst.id
  let name := inst.name
  match m.alloc_rt_index id with
  | (m1, .error e) => (m1, .error e)
  | (m1, .ok rt_index) =>
    if inst.needs_deferred then
      ({ m1 with pending_init := m1.pending_init ++ [id],
                 plugins := insertKey id inst m1.plugins,
                 order := m1.order ++ [id] },
       .ok (id, name, rt_index, none))
    else
      let processor := if engine_running then created else none
      ({ m1 with plugins := insertKey id inst m1.plugins,
                 order := m1.order ++ [id] },
       .ok (id, name, rt_index, processor))

/-- `PluginManager::remove_plugin` (plugins.rs 158–171). -/
def PluginManager.remove_plugin (m : PluginManager) (id : String) :
    PluginManager × Except String Unit :=
  if (lookupKey id m.plugins).isSome then
    let m1 := { m with plugins := removeKey id m.plugins,
                       order := m.order.filter (fun x => x ≠ id),
                       muted := m.muted.filter (fun x => x ≠ id),
                       bypassed := m.bypassed.filter (fun x => x ≠ id),
                       gains := removeKey id m.gains,
                       pending_init := m.pending_init.filter (fun x => x ≠ id) }
    (m1.free_rt_index id, .ok ())
  else (m, .error "Plugin not found")

/-- `PluginManager::begin_unload` (plugins.rs 173–195): removes the instance
from all UI-facing bookkeeping, stores `false` into its shared atomic
`active_flag` (the kill switch observed by the audio thread's processor), and
parks the instance in `pending_drop_by_index`. -/
def PluginManager.begin_unload (m : PluginManager) (id : String) :
    PluginManager × Except String ℕ :=
  match m.rt_index_of id with
  | none => (m, .error "Plugin not found")
  | some idx =>
    match lookupKey id m.plugins with
    | none => (m, .error "Plugin not found")
    | some inst0 =>
      let inst1 := { inst0 with active_flag := false }
      ({ m with plugins := removeKey id m.plugins,
                order := m.order.filter (fun x => x ≠ id),
                pending_init := m.pending_init.filter (fun x => x ≠ id),
                muted := m.muted.filter (fun x => x ≠ id),
                bypassed := m.bypassed.filter (fun x => x ≠ id),
                gains := removeKey id m.gains,
                pending_drop_by_index :=
                  insertKey idx inst1 m.pending_drop_by_index },
       .ok idx)

/-- `PluginManager::finalize_unload` (plugins.rs 197–221): takes the parked
instance, pins its library in the burned set (at most once per
`burned_library_key`), drops the instance, and frees the rt slot. -/
def PluginManager.finalize_unload (m : PluginManager) (index : ℕ) : PluginManager :=
  let m1 :=
    match lookupKey index m.pending_drop_by_index with
    | some inst0 =>
      let m2 := { m with pending_drop_by_index :=
                    removeKey index m.pending_drop_by_index }
      let key := burned_library_key inst0.path
      if key ∈ m2.burned_library_keys then m2
      else { m2 with burned_library_keys := key :: m2.burned_library_keys,
                     burned_libraries := m2.burned_libraries ++ [inst0.library] }
    | none => m
  if index < m1.id_by_rt_index.length then
    match m1.id_by_rt_index.getD index none with
    | some id =>
        { m1 with id_by_rt_index := m1.id_by_rt_index.set index none,
                  rt_index_by_id := removeKey id m1.rt_index_by_id }
    | none => m1
  else m1

/-- `PluginManager::runtime_stats` (plugins.rs 283–292):
`(active_plugin_count, pending_unload_count, burned_library_count)`. -/
def PluginManager.runtime_stats (m : PluginManager) : ℕ × ℕ × ℕ :=
  (sat32 m.plugins.length,
   sat32 m.pending_drop_by_index.length,
   sat32 m.burned_libraries.length)

/-- `Command::UnloadPlugin` dispatch (core.rs 687–706): with a running output
stream the engine calls `begin_unload` (then queues `RemoveProcessor`);
otherwise it calls `remove_plugin`. `Success` is sent exactly on the `Ok`
paths. -/
def unloadPluginCmd (streamRunning : Bool) (m : PluginManager) (id : String) :
    PluginManager × Except String (Option ℕ) :=
  if streamRunning then
    match m.begin_unload id with
    | (m1, .ok index) => (m1, .ok (some index))
    | (m1, .error e) => (m1, .error e)
  else
    match m.remove_plugin id with
    | (m1, .ok _) => (m1, .ok none)
    | (m1, .error e) => (m1, .error e)

/-- The mutating `PluginManager` operations, for lifetime-invariant claims. -/
inductive PMOp where
  | load (inst : VstInstance) (engine_running : Bool) (created : Option Unit)
  | remove (id : String)
  | beginUnload (id : String)
  | finalizeUnload (index : ℕ)
  | allocRt (id : String)
  | freeRt (id : String)
deriving Repr, DecidableEq

def applyOp (m : PluginManager) (op : PMOp) : PluginManager :=
  match op with
  | .load inst running created => (m.load_plugin inst running created).1
  | .remove id => (m.remove_plugin id).1
  | .beginUnload id => (m.begin_unload id).1
  | .finalizeUnload index => m.finalize_unload index
  | .allocRt id => (m.alloc_rt_index id).1
  | .freeRt id => m.free_rt_index id

/-- Invariant tying the burned-library vector to its key set: one entry per
recorded key, keys distinct. Established by `PluginManager::new`. -/
def BurnInv (m : PluginManager) : Prop :=
  m.burned_libraries.length = m.burned_library_keys.length ∧
  m.burned_library_keys.Nodup

instance (m : PluginManager) : Decidable (BurnInv m) := by
  unfold BurnInv
  infer_instance

/-- All instances known to the manager come from plugin path `p` (the repeated
load/unload-cycle scenario of the spec). -/
def PathsAll (m : PluginManager) (p : String) : Prop :=
  (∀ e ∈ m.plugins, (e.2).path = p) ∧
  (∀ e ∈ m.pending_drop_by_index, (e.2).path = p)

instance (m : PluginManager) (p : String) : Decidable (PathsAll m p) := by
  unfold PathsAll
  infer_instance

/-- An operation only introduces instances of path `p`. -/
def OpsPath (p : String) : PMOp → Prop
  | .load inst _ _ => inst.path = p
  | _ => True

instance (p : String) (op : PMOp) : Decidable (OpsPath p op) := by
  unfold OpsPath
  cases op <;> infer_instance

/-! ### Real-time processor kill switch (instance.rs 3845–3862)

`VstProcessor::process_planar` checks the shared atomic `active_flag` first;
when it is `false` it zeroes the requested frames of every output channel and
returns without touching the native plugin. The native vtable `process` call is
FFI and appears as the oracle `native` (its effect on the output buffers). -/

abbrev Buf := List ℚ

abbrev ChanBuf := List Buf

/-- `slice[..n].fill(0.0)` on a channel buffer. -/
def zeroFirst (n : ℕ) (b : Buf) : Buf :=
  mapWithIndex (fun i x => if i < n then 0 else x) b

structure RtProcessor where
  active_flag : Bool
  ptr_null : Bool
  max_block_size : ℕ
deriving Repr, DecidableEq

/-- `VstProcessor::process_planar`; the `Bool` records whether the native
plugin `process` was invoked. -/
def processPlanar (p : RtProcessor) (native : ChanBuf → ChanBuf → ChanBuf)
    (inputs outputs : ChanBuf) (num_samples : ℕ) : ChanBuf × Bool :=
  if p.active_flag = false then
    (outputs.map (fun ch => if num_samples ≤ ch.length then zeroFirst num_samples ch else ch),
     false)
  else if p.ptr_null then (outputs, false)
  else if p.max_block_size < num_samples then (outputs, false)
  else (native inputs outputs, true)

/-! ### Ping-pong plugin-chain loop (core.rs 1549–1642)

The callback state relevant to the chain: two planar buffer stacks
(`planar_buf_a`/`planar_buf_b`), the `current_source_is_a` marker, the
per-slot gain smoothers, and (ghost) the list of slots whose processor was
invoked. A processor's effect on the written buffer stack is the oracle
`ProcFn` (its `process_planar`, claim C2's function, at chain level). -/

abbrev ProcFn := ChanBuf → ChanBuf → ChanBuf

/-- `dst[..n].copy_from_slice(&src[..n])`. -/
def copyFirst (n : ℕ) (src dst : Buf) : Buf := src.take n ++ dst.drop n

/-- Soft-bypass copy (core.rs 1565–1583): for `ch in 0..channels`, when both
stacks have the channel and both buffers hold `frames` samples, copy the
current buffer's first `frames` samples into the other buffer. -/
def bypassCopy (channels frames : ℕ) (inb outb : ChanBuf) : ChanBuf :=
  mapWithIndex (fun ch o =>
    if ch < channels then
      match inb.get? ch with
      | some ib =>
          if frames ≤ ib.length ∧ frames ≤ o.length then copyFirst frames ib o else o
      | none => o
    else o) outb

/-- Mute (core.rs 1590–1603): zero the first `frames` samples of channels
`0..channels` of the current buffer, in place. -/
def muteZero (channels frames : ℕ) (b : ChanBuf) : ChanBuf :=
  mapWithIndex (fun ch x => if ch < channels then zeroFirst frames x else x) b

/-- Gain smoothing loop (core.rs 1631–1638): one `Smoother::next` per frame,
multiplied into all `channels` channels at that frame index. -/
def gainLoop (channels : ℕ) : ℕ → ℕ → Smoother × ChanBuf → Smoother × ChanBuf
  | 0, _, st => st
  | count + 1, i, (s, buf) =>
      let sg := s.next
      let buf1 := mapWithIndex
        (fun ch b => if ch < channels then b.set i (b.getD i 0 * sg.2) else b) buf
      gainLoop channels count (i + 1) (sg.1, buf1)

/-- Gain-application trigger (core.rs 1622–1624):
`(current - 1).abs > 0.0001 || (target - 1).abs > 0.0001`. -/
def gainActive (s : Smoother) : Prop :=
  1 / 10000 < |s.current - 1| ∨ 1 / 10000 < |s.target - 1|

instance (s : Smoother) : Decidable (gainActive s) := by
  unfold gainActive
  infer_instance

structure ChainState where
  bufA : ChanBuf
  bufB : ChanBuf
  srcIsA : Bool
  gains : List Smoother
  invoked : List ℕ

/-- The buffer the marker designates as current. -/
def ChainState.cur (st : ChainState) : ChanBuf := if st.srcIsA then st.bufA else st.bufB

/-- The other ping-pong buffer. -/
def ChainState.oth (st : ChainState) : ChanBuf := if st.srcIsA then st.bufB else st.bufA

/-- One iteration of the chain loop for the order entry `idx`
(core.rs 1558–1641): skip out-of-range slots; a bypassed slot copies current →
other and toggles; a muted slot zeroes the current buffer in place (no toggle,
no processor call); an installed processor reads the current stack, writes the
other, toggles, then gain-smooths the freshly written buffer when the smoother
is not pinned at 1. -/
def chainStep (channels frames : ℕ) (bypassed muted : List Bool)
    (procs : List (Option ProcFn)) (st : ChainState) (idx : ℕ) : ChainState :=
  if MAX_PLUGINS ≤ idx then st
  else if bypassed.getD idx false then
    if st.srcIsA then
      { st with bufB := bypassCopy channels frames st.bufA st.bufB, srcIsA := false }
    else
      { st with bufA := bypassCopy channels frames st.bufB st.bufA, srcIsA := true }
  else if muted.getD idx false then
    if st.srcIsA then { st with bufA := muteZero channels frames st.bufA }
    else { st with bufB := muteZero channels frames st.bufB }
  else
    match procs.getD idx none with
    | none => st
    | some procF =>
      let s := st.gains.getD idx (Smoother.new 1)
      if st.srcIsA then
        let written := procF st.bufA st.bufB
        if gainActive s then
          let res := gainLoop channels frames 0 (s, written)
          { bufA := st.bufA, bufB := res.2, srcIsA := false,
            gains := st.gains.set idx res.1, invoked := st.invoked ++ [idx] }
        else
          { st with bufB := written, srcIsA := false, invoked := st.invoked ++ [idx] }
      else
        let written := procF st.bufB st.bufA
        if gainActive s then
          let res := gainLoop channels frames 0 (s, written)
          { bufA := res.2, bufB := st.bufB, srcIsA := true,
            gains := st.gains.set idx res.1, invoked := st.invoked ++ [idx] }
        else
          { st with bufA := written, srcIsA := true, invoked := st.invoked ++ [idx] }

/-- The whole chain loop (core.rs 1557): runs over the declared order only when
global bypass is off, at least one processor is installed, and the order is
non-empty; otherwise the buffers pass through untouched. -/
def chainRun (globalBypass : Bool) (activeCount : ℕ) (order : List ℕ)
    (channels frames : ℕ) (bypassed muted : List Bool)
    (procs : List (Option ProcFn)) (st : ChainState) : ChainState :=
  if ¬globalBypass ∧ 0 < activeCount ∧ order ≠ [] then
    order.foldl (chainStep channels frames bypassed muted procs) st
  else st

/-- Planar sample accessor (a channel stack's sample, default 0). -/
def chanGet (cb : ChanBuf) (ch i : ℕ) : ℚ := (cb.getD ch []).getD i 0

/-! ### Input routing / metering and the output stage (core.rs 1440–1507,
1644–1715) -/

/-- One routed input sample (core.rs 1480–1489): the selected physical channel
after input gain, or 0 when the selector is out of range. -/
def routedSample (input : List ℚ) (gain : ℚ) (channels i sel : ℕ) : ℚ :=
  if sel < channels then input.getD (i * channels + sel) 0 * gain else 0

/-- Input peak meter (core.rs 1497–1506): running max of `|routed sample|`
over the block, starting from 0. -/
def inputPeak (input : List ℚ) (gain : ℚ) (channels frames sel : ℕ) : ℚ :=
  (List.range frames).foldl
    (fun acc i => max acc |routedSample input gain channels i sel|) 0

structure MeterLevels where
  inputL : ℚ
  inputR : ℚ
  outputL : ℚ
  outputR : ℚ
deriving Repr, DecidableEq

/-- Non-muted output interleaving loop (core.rs 1667–1696): per frame, one
`Smoother::next` of the master output gain; main left/right samples are read
from channels 0/1 of the final buffer (right falls back to the already-gained
left, as in the source) and written at the selected physical channels when in
range. -/
def outWriteLoop (fb : ChanBuf) (channels tL tR : ℕ) :
    ℕ → ℕ → Smoother → List ℚ → Smoother × List ℚ
  | 0, _, g, data => (g, data)
  | count + 1, i, g, data =>
      let gg := g.next
      let mainL := (fb.getD 0 []).getD i 0 * gg.2
      let mainR := (((fb.get? 1).bind (fun b => b.get? i)).getD mainL) * gg.2
      let d1 := if tL < channels then data.set (i * channels + tL) mainL else data
      let d2 := if tR < channels then d1.set (i * channels + tR) mainR else d1
      outWriteLoop fb channels tL tR count (i + 1) gg.1 d2

/-- Result interleaving / metering stage (core.rs 1644–1715). Under global mute
the whole output block is filled with zeros and the meter message carries the
measured input peaks with output levels `[0, 0]`; otherwise the routed
interleave runs and output peaks are measured post-master-gain. -/
def outputStage (globalMute : Bool) (fb : ChanBuf) (frames channels : ℕ)
    (inMaxL inMaxR : ℚ) (outGain : Smoother) (tL tR : ℕ) (dataLen : ℕ) :
    List ℚ × Smoother × MeterLevels :=
  if globalMute then
    (List.replicate dataLen 0, outGain,
     { inputL := inMaxL, inputR := inMaxR, outputL := 0, outputR := 0 })
  else
    let res := outWriteLoop fb channels tL tR frames 0 outGain (List.replicate dataLen 0)
    let gainForMeter := res.1.current
    let outMaxL :=
      ((fb.head?).map (fun b => (b.take frames).foldl (fun mx x => max mx |x|) 0)).getD 0
        * gainForMeter
    let outMaxR :=
      ((fb.get? 1).map (fun b => (b.take frames).foldl (fun mx x => max mx |x|) 0)).getD
          outMaxL
        * gainForMeter
    (res.2, res.1,
     { inputL := inMaxL, inputR := inMaxR, outputL := outMaxL, outputR := outMaxR })

/-! ### Channel scan (core.rs 1436–1462, 1531–1547) -/

/-- Per-block channel peak scan: a zeroed 32-entry array; for each frame and
each physical channel below `scan_limit = min(channels, 32)` (and only while
scanning is enabled), track the max of `|input sample × input gain|`. -/
def scanPeaks (scanEnabled : Bool) (channels frames : ℕ) (gain : ℚ)
    (input : List ℚ) : List ℚ :=
  (List.range frames).foldl (fun peaks i =>
    (List.range channels).foldl (fun pk ch =>
      let sample := input.getD (i * channels + ch) 0 * gain
      if scanEnabled ∧ ch < min channels 32 then
        if pk.getD ch 0 < |sample| then pk.set ch |sample| else pk
      else pk) peaks) (List.replicate 32 0)

/-- Snapshot pushed to the scan queue (core.rs 1538–1545): a fresh zero array
whose first `scan_limit` entries are copied from the accumulated peaks. -/
def scanSnapshot (channels : ℕ) (peaks : List ℚ) : List ℚ :=
  (List.range 32).map (fun i => if i < min channels 32 then peaks.getD i 0 else 0)

/-- Scan throttle (core.rs 1538): emit when `current_frames % 4800 < frames`
(`current_frames` already includes this block). -/
def shouldEmitScan (currentFrames frames : ℕ) : Bool :=
  currentFrames % 4800 < frames

/-! ### Stream resampler (resampling.rs)

`StreamResampler::process` de-interleaves `input.len() / channels` frames into
the per-channel accumulation, converting each time the accumulation fills to
`input_chunk_size` frames. The source copies `min(space_left, remaining)`
frames and then checks fullness; consuming frame-by-frame with a fullness check
after each frame produces the same accumulation contents, the same conversion
points, and the same output. The rubato `FftFixedIn::process` conversion (an
external dependency) is the oracle `convert`. -/

/-- Interleaved frame `i`: samples `input[i * channels + ch]` for each channel. -/
def frameAt (channels : ℕ) (input : List ℚ) (i : ℕ) : List ℚ :=
  (List.range channels).map (fun ch => input.getD (i * channels + ch) 0)

/-- The `frames_in = input.len() / channels` completed frames of the input
(a trailing partial frame is dropped, as integer division does). -/
def framesOf (channels : ℕ) (input : List ℚ) : List (List ℚ) :=
  (List.range (input.length / channels)).map (frameAt channels input)

/-- De-interleaved write of one frame at accumulation position `collected`. -/
def writeFrame (collected : ℕ) (frame : List ℚ) (acc : List (List ℚ)) :
    List (List ℚ) :=
  mapWithIndex (fun ch accCh => accCh.set collected (frame.getD ch 0)) acc

/-- Re-interleave a converter result (`for i in 0..waves_out[0].len() { for ch
in 0..channels { push waves_out[ch][i] } }`). -/
def interleaveOut (channels : ℕ) (waves : List (List ℚ)) : List ℚ :=
  ((List.range (waves.getD 0 []).length).map
    (fun i => (List.range channels).map (fun ch => (waves.getD ch []).getD i 0))).flatten

/-- The `StreamResampler::process` loop over de-interleaved frames. Returns
(interleaved output, final accumulation, final `input_frames_collected`,
ghost count of `convert` invocations). -/
def resampleFrames (convert : List (List ℚ) → List (List ℚ)) (chunk channels : ℕ) :
    List (List ℚ) → List (List ℚ) → ℕ → List ℚ × List (List ℚ) × ℕ × ℕ
  | [], acc, collected => ([], acc, collected, 0)
  | frame :: rest, acc, collected =>
      let acc1 := writeFrame collected frame acc
      let collected1 := collected + 1
      if collected1 = chunk then
        let waves := convert acc1
        let out := interleaveOut channels waves
        let r := resampleFrames convert chunk channels rest acc1 0
        (out ++ r.1, r.2.1, r.2.2.1, r.2.2.2 + 1)
      else
        resampleFrames convert chunk channels rest acc1 collected1

/-- `StreamResampler::process` (resampling.rs 52–107) on the embedded state
`(acc, collected)`; `chunk` is the fixed `input_chunk_size` chosen by
`StreamResampler::new` from `resampler.input_frames_max()`. -/
def streamResamplerProcess (convert : List (List ℚ) → List (List ℚ))
    (chunk channels : ℕ) (acc : List (List ℚ)) (collected : ℕ)
    (input : List ℚ) : List ℚ × List (List ℚ) × ℕ × ℕ :=
  resampleFrames convert chunk channels (framesOf channels input) acc collected

/-! ### Concrete fixtures used by witnesses -/

def instW : VstInstance :=
  { id := "p", name := "Plugin", path := "C:/x.vst3", active_flag := true,
    needs_deferred := false, library := "lib0" }

def managerW : PluginManager :=
  { PluginManager.new with
      plugins := [("p", instW)], order := ["p"], rt_index_by_id := [("p", 0)],
      id_by_rt_index := (List.replicate MAX_PLUGINS none).set 0 (some "p") }

/-! ## Proofs -/

/-! ### Helper lemmas -/

theorem length_mapWithIndexFrom (f : ℕ → α → α) (i : ℕ) (l : List α) :
    (mapWithIndexFrom f i l).length = l.length := by
  induction l generalizing i with
  | nil => rfl
  | cons x xs ih => simp [mapWithIndexFrom, ih]

theorem getD_mapWithIndexFrom (f : ℕ → α → α) (i j : ℕ) (l : List α) (d : α) :
    (mapWithIndexFrom f i l).getD j d =
      if j < l.length then f (i + j) (l.getD j d) else d := by
  induction l generalizing i j with
  | nil => simp [mapWithIndexFrom]
  | cons x xs ih =>
    cases j with
    | zero => simp [mapWithIndexFrom]
    | succ k =>
      simp only [mapWithIndexFrom, List.getD_cons_succ, List.length_cons, ih]
      rw [show i + 1 + k = i + (k + 1) by omega]
      simp [Nat.succ_lt_succ_iff]

theorem getD_mapWithIndex (f : ℕ → α → α) (j : ℕ) (l : List α) (d : α) :
    (mapWithIndex f l).getD j d =
      if j < l.length then f j (l.getD j d) else d := by
  simpa [mapWithIndex] using getD_mapWithIndexFrom f 0 j l d

theorem length_mapWithIndex (f : ℕ → α → α) (l : List α) :
    (mapWithIndex f l).length = l.length :=
  length_mapWithIndexFrom f 0 l

/-! ### Association-list lemmas -/

theorem lookupKey_isSome_iff [DecidableEq κ] (k : κ) (l : List (κ × α)) :
    (lookupKey k l).isSome ↔ k ∈ l.map Prod.fst := by
  induction l with
  | nil => simp [lookupKey]
  | cons e rest ih =>
    obtain ⟨k', v⟩ := e
    by_cases h : k' = k
    · subst h
      simp [lookupKey]
    · simp [lookupKey, h, ih, Ne.symm h]

theorem lookupKey_eq_none_iff [DecidableEq κ] (k : κ) (l : List (κ × α)) :
    lookupKey k l = none ↔ k ∉ l.map Prod.fst := by
  rw [← lookupKey_isSome_iff k l]
  cases lookupKey k l <;> simp

theorem mem_of_mem_removeKey [DecidableEq κ] {k : κ} {l : List (κ × α)} {e : κ × α}
    (h : e ∈ removeKey k l) : e ∈ l :=
  (List.mem_filter.1 h).1

theorem removeKey_eq_self [DecidableEq κ] {k : κ} {l : List (κ × α)}
    (h : k ∉ l.map Prod.fst) : removeKey k l = l := by
  induction l with
  | nil => rfl
  | cons e rest ih =>
    simp only [List.map_cons, List.mem_cons, not_or] at h
    simp only [removeKey, List.filter_cons]
    rw [if_pos (by simpa [Ne.symm] using Ne.symm h.1)]
    have h2 := ih h.2
    simpa [removeKey] using h2

theorem lookupKey_removeKey [DecidableEq κ] (k : κ) (l : List (κ × α)) :
    lookupKey k (removeKey k l) = none := by
  rw [lookupKey_eq_none_iff]
  intro hmem
  obtain ⟨e, he, hfst⟩ := List.mem_map.1 hmem
  have := (List.mem_filter.1 he).2
  simp [hfst] at this

theorem lookupKey_insertKey [DecidableEq κ] (k : κ) (v : α) (l : List (κ × α)) :
    lookupKey k (insertKey k v l) = some v := by
  simp [insertKey, lookupKey]

theorem length_insertKey_of_none [DecidableEq κ] {k : κ} (v : α) {l : List (κ × α)}
    (h : lookupKey k l = none) : (insertKey k v l).length = l.length + 1 := by
  have h2 := removeKey_eq_self ((lookupKey_eq_none_iff k l).1 h)
  simp [insertKey, h2]

theorem length_removeKey_nodup [DecidableEq κ] {k : κ} {l : List (κ × α)}
    (hnd : (l.map Prod.fst).Nodup) (h : (lookupKey k l).isSome) :
    (removeKey k l).length + 1 = l.length := by
  induction l with
  | nil => simp [lookupKey] at h
  | cons e rest ih =>
    obtain ⟨k', v⟩ := e
    simp only [List.map_cons, List.nodup_cons] at hnd
    by_cases hk : k' = k
    · subst hk
      have hrest : removeKey k' rest = rest := removeKey_eq_self hnd.1
      simp [removeKey, List.filter_cons, hrest]
      simpa [removeKey] using congrArg List.length hrest
    · have hh : (lookupKey k rest).isSome := by
        simpa [lookupKey, hk] using h
      have := ih hnd.2 hh
      simp only [removeKey, List.filter_cons]
      rw [if_pos (by simpa using hk)]
      simpa [removeKey] using congrArg Nat.succ this

/-! ### Plugin-manager lemmas -/

theorem findFreeSlot_none_of_full (l : List (Option String))
    (h : ∀ x ∈ l, x.isSome) : findFreeSlot l = none := by
  induction l with
  | nil => rfl
  | cons x rest ih =>
    have hx := h x (by simp)
    simp only [findFreeSlot]
    rw [if_neg (by simp [Option.isNone_iff_eq_none]; cases x <;> simp_all)]
    rw [ih (fun y hy => h y (by simp [hy]))]
    rfl

theorem alloc_rt_index_full (m : PluginManager) (id : String)
    (hfull : ∀ slot ∈ m.id_by_rt_index, slot.isSome)
    (hnew : lookupKey id m.rt_index_by_id = none) :
    m.alloc_rt_index id = (m, Except.error "Plugin limit reached (MAX_PLUGINS=32)") := by
  unfold PluginManager.alloc_rt_index
  rw [hnew, findFreeSlot_none_of_full _ hfull]

theorem free_rt_index_plugins_pending (m : PluginManager) (id : String) :
    (m.free_rt_index id).plugins = m.plugins ∧
    (m.free_rt_index id).pending_drop_by_index = m.pending_drop_by_index := by
  unfold PluginManager.free_rt_index
  cases lookupKey id m.rt_index_by_id <;> simp

theorem finalize_unload_pending (m : PluginManager) (index : ℕ) :
    (m.finalize_unload index).pending_drop_by_index
      = (match lookupKey index m.pending_drop_by_index with
          | some _ => removeKey index m.pending_drop_by_index
          | none => m.pending_drop_by_index) := by
  unfold PluginManager.finalize_unload
  cases lookupKey index m.pending_drop_by_index <;> (dsimp only []) <;>
    (repeat' split) <;> rfl

/-! ### Claim C6 -/

/-- C6: with all `MAX_PLUGINS = 32` rt-index slots occupied, `load_plugin` for a
new plugin id returns the `MAX_PLUGINS` error and the manager's bookkeeping
(plugin map, order, pending-init queue, rt-index maps — the whole record) is
exactly as before the call. -/
theorem load_plugin_at_capacity (m : PluginManager) (inst : VstInstance)
    (running : Bool) (created : Option Unit)
    (_hlen : m.id_by_rt_index.length = MAX_PLUGINS)
    (hfull : ∀ slot ∈ m.id_by_rt_index, slot.isSome)
    (hnew : lookupKey inst.id m.rt_index_by_id = none) :
    m.load_plugin inst running created
      = (m, Except.error "Plugin limit reached (MAX_PLUGINS=32)") := by
  have ha := alloc_rt_index_full m inst.id hfull hnew
  unfold PluginManager.load_plugin
  simp only [ha]

/-- Witness for C6: a manager with all 32 slots occupied rejects a fresh id and
is returned unchanged. -/
theorem load_plugin_at_capacity_witness :
    ((List.replicate 32 (some "q") : List (Option String)).length = MAX_PLUGINS ∧
      lookupKey "p" ([] : List (String × ℕ)) = none) ∧
    ({ PluginManager.new with id_by_rt_index := List.replicate 32 (some "q")
      }.load_plugin instW true none
      = ({ PluginManager.new with id_by_rt_index := List.replicate 32 (some "q") },
         Except.error "Plugin limit reached (MAX_PLUGINS=32)")) :=
  ⟨⟨by decide, by decide⟩,
    load_plugin_at_capacity _ instW true none (by decide)
      (by decide) (by decide)⟩

/-! ### Claim C1 -/

/-- C1: a successful `UnloadPlugin{id}` (running stream: `begin_unload`;
stopped: `remove_plugin`) removes `id` from the plugin map, so a subsequent
`GetRuntimeStats` reports `active_plugin_count` without it (old count minus
one); and when the stream was running, the instance sits in
`pending_drop_by_index` — counted by `pending_unload_count` — until
`finalize_unload` of its rt index removes it. -/
theorem unload_then_stats (running : Bool) (m m' : PluginManager) (id : String)
    (r : Option ℕ)
    (hnd : (m.plugins.map Prod.fst).Nodup)
    (h : unloadPluginCmd running m id = (m', Except.ok r)) :
    lookupKey id m'.plugins = none ∧
    m'.runtime_stats.1 = sat32 (m.plugins.length - 1) ∧
    (running = true → ∃ idx, r = some idx ∧
      (lookupKey idx m'.pending_drop_by_index).isSome ∧
      (lookupKey idx m.pending_drop_by_index = none →
        m'.runtime_stats.2.1 = sat32 (m.pending_drop_by_index.length + 1)) ∧
      lookupKey idx ((m'.finalize_unload idx).pending_drop_by_index) = none) := by
  unfold unloadPluginCmd at h
  cases running with
  | true =>
    simp only [if_pos rfl] at h
    rcases hbe : m.begin_unload id with ⟨m1, res⟩
    rw [hbe] at h
    cases res with
    | error e => simp at h
    | ok idx0 =>
      have hr' : r = some idx0 := by
        have h2 := congrArg Prod.snd h
        simpa using h2.symm
      have hm'' : m' = m1 := by
        have h1 := congrArg Prod.fst h
        simpa using h1.symm
      subst hm'' hr'
      unfold PluginManager.begin_unload PluginManager.rt_index_of at hbe
      rcases hidx : lookupKey id m.rt_index_by_id with _ | idx1
      · rw [hidx] at hbe
        simp at hbe
      · rw [hidx] at hbe
        rcases hins : lookupKey id m.plugins with _ | inst0
        · rw [hins] at hbe
          simp at hbe
        · rw [hins] at hbe
          simp only [Prod.mk.injEq] at hbe
          obtain ⟨hm1, hidx0⟩ := hbe
          have hidx0' : idx0 = idx1 := (Except.ok.inj hidx0).symm
          subst hidx0'
          subst hm1
          refine ⟨lookupKey_removeKey id m.plugins, ?_, fun _ => ⟨idx0, rfl, ?_, ?_, ?_⟩⟩
          · have hlen := length_removeKey_nodup hnd (by rw [hins]; rfl)
            unfold PluginManager.runtime_stats
            simp only []
            congr 1
            omega
          · rw [lookupKey_insertKey]
            rfl
          · intro hnone
            have hrk : removeKey idx0 m.pending_drop_by_index = m.pending_drop_by_index :=
              removeKey_eq_self ((lookupKey_eq_none_iff idx0 m.pending_drop_by_index).1 hnone)
            unfold PluginManager.runtime_stats
            simp [insertKey, hrk]
          · rw [finalize_unload_pending]
            simp only []
            rw [lookupKey_insertKey]
            exact lookupKey_removeKey idx0 _
  | false =>
    rw [if_neg (by decide : ¬(false = true))] at h
    rcases hrm : m.remove_plugin id with ⟨m1, res⟩
    rw [hrm] at h
    cases res with
    | error e => simp at h
    | ok u =>
      have hr' : r = none := by
        have := congrArg Prod.snd h
        simpa using this.symm
      have hm'' : m' = m1 := by
        have := congrArg Prod.fst h
        simpa using this.symm
      subst hm'' hr'
      unfold PluginManager.remove_plugin at hrm
      by_cases hins : (lookupKey id m.plugins).isSome
      · rw [if_pos hins] at hrm
        simp only [Prod.mk.injEq] at hrm
        have hm1 := hrm.1
        subst hm1
        have hfp := free_rt_index_plugins_pending
          { m with plugins := removeKey id m.plugins,
                   order := m.order.filter (fun x => x ≠ id),
                   muted := m.muted.filter (fun x => x ≠ id),
                   bypassed := m.bypassed.filter (fun x => x ≠ id),
                   gains := removeKey id m.gains,
                   pending_init := m.pending_init.filter (fun x => x ≠ id) } id
        refine ⟨?_, ?_, fun hcon => absurd hcon (by simp)⟩
        · rw [hfp.1]
          exact lookupKey_removeKey id m.plugins
        · unfold PluginManager.runtime_stats
          rw [hfp.1]
          have hlen := length_removeKey_nodup hnd hins
          simp only []
          congr 1
          omega
      · rw [if_neg hins] at hrm
        simp at hrm

/-- Witness for C1: unloading the only loaded plugin of a concrete manager while
the stream runs. -/
theorem unload_then_stats_witness :
    (managerW.plugins.map Prod.fst).Nodup ∧
    lookupKey "p" ((unloadPluginCmd true managerW "p").1).plugins = none ∧
    ((unloadPluginCmd true managerW "p").1).runtime_stats.1
      = sat32 (managerW.plugins.length - 1) := by
  have h := unload_then_stats true managerW ((unloadPluginCmd true managerW "p").1)
    "p" (some 0) (by decide) rfl
  exact ⟨by decide, h.1, h.2.1⟩

/-! ### Burned-library lemmas (claim C5) -/

theorem lookupKey_mem [DecidableEq κ] {k : κ} {l : List (κ × α)} {v : α}
    (h : lookupKey k l = some v) : (k, v) ∈ l := by
  induction l with
  | nil => simp [lookupKey] at h
  | cons e rest ih =>
    obtain ⟨k', v'⟩ := e
    by_cases hk : k' = k
    · subst hk
      rw [show lookupKey k' ((k', v') :: rest) = some v' from if_pos rfl] at h
      rw [Option.some.injEq] at h
      subst h
      simp
    · simp only [lookupKey, if_neg hk] at h
      exact List.mem_cons_of_mem _ (ih h)

theorem alloc_rt_index_fields (m : PluginManager) (id : String) :
    ((m.alloc_rt_index id).1).burned_libraries = m.burned_libraries ∧
    ((m.alloc_rt_index id).1).burned_library_keys = m.burned_library_keys ∧
    ((m.alloc_rt_index id).1).plugins = m.plugins ∧
    ((m.alloc_rt_index id).1).pending_drop_by_index = m.pending_drop_by_index := by
  unfold PluginManager.alloc_rt_index
  (repeat' split) <;> exact ⟨rfl, rfl, rfl, rfl⟩

theorem free_rt_index_fields (m : PluginManager) (id : String) :
    (m.free_rt_index id).burned_libraries = m.burned_libraries ∧
    (m.free_rt_index id).burned_library_keys = m.burned_library_keys ∧
    (m.free_rt_index id).plugins = m.plugins ∧
    (m.free_rt_index id).pending_drop_by_index = m.pending_drop_by_index := by
  unfold PluginManager.free_rt_index
  (repeat' split) <;> exact ⟨rfl, rfl, rfl, rfl⟩

theorem load_plugin_fields (m : PluginManager) (inst : VstInstance)
    (running : Bool) (created : Option Unit) :
    ((m.load_plugin inst running created).1).burned_libraries = m.burned_libraries ∧
    ((m.load_plugin inst running created).1).burned_library_keys
      = m.burned_library_keys ∧
    ((m.load_plugin inst running created).1).pending_drop_by_index
      = m.pending_drop_by_index ∧
    (((m.load_plugin inst running created).1).plugins = m.plugins ∨
      ((m.load_plugin inst running created).1).plugins
        = insertKey inst.id inst m.plugins) := by
  have hf := alloc_rt_index_fields m inst.id
  unfold PluginManager.load_plugin
  rcases ha : m.alloc_rt_index inst.id with ⟨m1, res⟩
  rw [ha] at hf
  dsimp only []
  rw [ha]
  cases res with
  | error e => exact ⟨hf.1, hf.2.1, hf.2.2.2, Or.inl hf.2.2.1⟩
  | ok rt_index =>
    dsimp only []
    by_cases hd : inst.needs_deferred = true
    · rw [if_pos hd]
      refine ⟨hf.1, hf.2.1, hf.2.2.2, Or.inr ?_⟩
      show insertKey inst.id inst m1.plugins = insertKey inst.id inst m.plugins
      rw [hf.2.2.1]
    · rw [if_neg hd]
      refine ⟨hf.1, hf.2.1, hf.2.2.2, Or.inr ?_⟩
      show insertKey inst.id inst m1.plugins = insertKey inst.id inst m.plugins
      rw [hf.2.2.1]

theorem remove_plugin_fields (m : PluginManager) (id : String) :
    ((m.remove_plugin id).1).burned_libraries = m.burned_libraries ∧
    ((m.remove_plugin id).1).burned_library_keys = m.burned_library_keys ∧
    (((m.remove_plugin id).1).plugins = m.plugins ∨
      ((m.remove_plugin id).1).plugins = removeKey id m.plugins) ∧
    ((m.remove_plugin id).1).pending_drop_by_index = m.pending_drop_by_index := by
  unfold PluginManager.remove_plugin
  by_cases h : (lookupKey id m.plugins).isSome
  · rw [if_pos h]
    have hf := free_rt_index_fields
      { m with plugins := removeKey id m.plugins,
               order := m.order.filter (fun x => x ≠ id),
               muted := m.muted.filter (fun x => x ≠ id),
               bypassed := m.bypassed.filter (fun x => x ≠ id),
               gains := removeKey id m.gains,
               pending_init := m.pending_init.filter (fun x => x ≠ id) } id
    exact ⟨hf.1, hf.2.1, Or.inr hf.2.2.1, hf.2.2.2⟩
  · rw [if_neg h]
    exact ⟨rfl, rfl, Or.inl rfl, rfl⟩

theorem begin_unload_fields (m : PluginManager) (id : String) :
    ((m.begin_unload id).1).burned_libraries = m.burned_libraries ∧
    ((m.begin_unload id).1).burned_library_keys = m.burned_library_keys ∧
    (((m.begin_unload id).1).plugins = m.plugins ∨
      ((m.begin_unload id).1).plugins = removeKey id m.plugins) ∧
    (((m.begin_unload id).1).pending_drop_by_index = m.pending_drop_by_index ∨
      ∃ idx inst0, lookupKey id m.plugins = some inst0 ∧
        ((m.begin_unload id).1).pending_drop_by_index
          = insertKey idx { inst0 with active_flag := false }
              m.pending_drop_by_index) := by
  unfold PluginManager.begin_unload PluginManager.rt_index_of
  cases hidx : lookupKey id m.rt_index_by_id with
  | none => exact ⟨rfl, rfl, Or.inl rfl, Or.inl rfl⟩
  | some idx =>
    cases hins : lookupKey id m.plugins with
    | none => exact ⟨rfl, rfl, Or.inl rfl, Or.inl rfl⟩
    | some inst0 =>
      exact ⟨rfl, rfl, Or.inr rfl, Or.inr ⟨idx, inst0, rfl, rfl⟩⟩

theorem finalize_unload_fields (m : PluginManager) (index : ℕ) :
    (m.finalize_unload index).plugins = m.plugins ∧
    (((m.finalize_unload index).burned_libraries = m.burned_libraries ∧
      (m.finalize_unload index).burned_library_keys = m.burned_library_keys) ∨
    (∃ inst0, lookupKey index m.pending_drop_by_index = some inst0 ∧
      burned_library_key inst0.path ∉ m.burned_library_keys ∧
      (m.finalize_unload index).burned_libraries
        = m.burned_libraries ++ [inst0.library] ∧
      (m.finalize_unload index).burned_library_keys
        = burned_library_key inst0.path :: m.burned_library_keys)) := by
  unfold PluginManager.finalize_unload
  cases h : lookupKey index m.pending_drop_by_index with
  | none =>
    dsimp only []
    constructor
    · (repeat' split) <;> rfl
    · left
      constructor <;> ((repeat' split) <;> rfl)
  | some inst0 =>
    dsimp only []
    by_cases hk : burned_library_key inst0.path ∈ m.burned_library_keys
    · rw [if_pos hk]
      refine ⟨?_, Or.inl ⟨?_, ?_⟩⟩ <;> ((repeat' split) <;> rfl)
    · rw [if_neg hk]
      refine ⟨?_, Or.inr ⟨inst0, rfl, hk, ?_, ?_⟩⟩ <;> ((repeat' split) <;> rfl)

theorem applyOp_burned_cases (m : PluginManager) (op : PMOp) :
    ((applyOp m op).burned_libraries = m.burned_libraries ∧
     (applyOp m op).burned_library_keys = m.burned_library_keys) ∨
    (∃ index inst0, op = .finalizeUnload index ∧
      lookupKey index m.pending_drop_by_index = some inst0 ∧
      burned_library_key inst0.path ∉ m.burned_library_keys ∧
      (applyOp m op).burned_libraries = m.burned_libraries ++ [inst0.library] ∧
      (applyOp m op).burned_library_keys
        = burned_library_key inst0.path :: m.burned_library_keys) := by
  cases op with
  | load inst running created =>
    have h := load_plugin_fields m inst running created
    exact Or.inl ⟨h.1, h.2.1⟩
  | remove id =>
    have h := remove_plugin_fields m id
    exact Or.inl ⟨h.1, h.2.1⟩
  | beginUnload id =>
    have h := begin_unload_fields m id
    exact Or.inl ⟨h.1, h.2.1⟩
  | finalizeUnload index =>
    have h := (finalize_unload_fields m index).2
    rcases h with h | ⟨inst0, h1, h2, h3, h4⟩
    · exact Or.inl h
    · exact Or.inr ⟨index, inst0, rfl, h1, h2, h3, h4⟩
  | allocRt id =>
    have h := alloc_rt_index_fields m id
    exact Or.inl ⟨h.1, h.2.1⟩
  | freeRt id =>
    have h := free_rt_index_fields m id
    exact Or.inl ⟨h.1, h.2.1⟩

theorem applyOp_burninv (m : PluginManager) (op : PMOp) (h : BurnInv m) :
    BurnInv (applyOp m op) := by
  rcases applyOp_burned_cases m op with ⟨hl, hk⟩ | ⟨index, inst0, _, _, hnotin, hl, hk⟩
  · exact ⟨by rw [hl, hk]; exact h.1, by rw [hk]; exact h.2⟩
  · constructor
    · rw [hl, hk]
      simp [h.1]
    · rw [hk]
      exact List.nodup_cons.2 ⟨hnotin, h.2⟩

theorem applyOp_paths (m : PluginManager) (op : PMOp) (p : String)
    (hp : PathsAll m p) (hop : OpsPath p op) : PathsAll (applyOp m op) p := by
  cases op with
  | load inst running created =>
    dsimp only [applyOp]
    have h := load_plugin_fields m inst running created
    have hpath : inst.path = p := hop
    constructor
    · rcases h.2.2.2 with hpl | hpl <;> rw [hpl]
      · exact hp.1
      · intro e he
        rcases List.mem_cons.1 he with he' | he'
        · rw [he']
          exact hpath
        · exact hp.1 e (mem_of_mem_removeKey he')
    · rw [h.2.2.1]
      exact hp.2
  | remove id =>
    dsimp only [applyOp]
    have h := remove_plugin_fields m id
    constructor
    · rcases h.2.2.1 with hpl | hpl <;> rw [hpl]
      · exact hp.1
      · exact fun e he => hp.1 e (mem_of_mem_removeKey he)
    · rw [h.2.2.2]
      exact hp.2
  | beginUnload id =>
    dsimp only [applyOp]
    have h := begin_unload_fields m id
    constructor
    · rcases h.2.2.1 with hpl | hpl <;> rw [hpl]
      · exact hp.1
      · exact fun e he => hp.1 e (mem_of_mem_removeKey he)
    · rcases h.2.2.2 with hpd | ⟨idx, inst0, hins, hpd⟩ <;> rw [hpd]
      · exact hp.2
      · intro e he
        rcases List.mem_cons.1 he with he' | he'
        · rw [he']
          exact hp.1 (id, inst0) (lookupKey_mem hins)
        · exact hp.2 e (mem_of_mem_removeKey he')
  | finalizeUnload index =>
    dsimp only [applyOp]
    have hpl := (finalize_unload_fields m index).1
    have hpd := finalize_unload_pending m index
    constructor
    · rw [hpl]
      exact hp.1
    · rw [hpd]
      cases lookupKey index m.pending_drop_by_index with
      | none => exact hp.2
      | some inst0 => exact fun e he => hp.2 e (mem_of_mem_removeKey he)
  | allocRt id =>
    dsimp only [applyOp]
    have h := alloc_rt_index_fields m id
    exact ⟨by rw [h.2.2.1]; exact hp.1, by rw [h.2.2.2]; exact hp.2⟩
  | freeRt id =>
    dsimp only [applyOp]
    have h := free_rt_index_fields m id
    exact ⟨by rw [h.2.2.1]; exact hp.1, by rw [h.2.2.2]; exact hp.2⟩

theorem foldl_burned_keys_sub (p : String) (ops : List PMOp) :
    ∀ m : PluginManager, BurnInv m → PathsAll m p → (∀ o ∈ ops, OpsPath p o) →
      BurnInv (ops.foldl applyOp m) ∧ PathsAll (ops.foldl applyOp m) p ∧
        (∀ k ∈ (ops.foldl applyOp m).burned_library_keys,
          k = burned_library_key p ∨ k ∈ m.burned_library_keys) := by
  induction ops with
  | nil => exact fun m h1 h2 _ => ⟨h1, h2, fun k hk => Or.inr hk⟩
  | cons o rest ih =>
    intro m h1 h2 h3
    simp only [List.foldl_cons]
    have hBI : BurnInv (applyOp m o) := applyOp_burninv m o h1
    have hPA : PathsAll (applyOp m o) p := applyOp_paths m o p h2 (h3 o (by simp))
    have hrest := ih (applyOp m o) hBI hPA (fun o' ho' => h3 o' (by simp [ho']))
    refine ⟨hrest.1, hrest.2.1, fun k hk => ?_⟩
    rcases hrest.2.2 k hk with h | h
    · exact Or.inl h
    · rcases applyOp_burned_cases m o with ⟨_, hkeys⟩ |
        ⟨index, inst0, _, hlk, _, _, hkeys⟩
      · rw [hkeys] at h
        exact Or.inr h
      · rw [hkeys] at h
        rcases List.mem_cons.1 h with h' | h'
        · left
          rw [h']
          have hpath : inst0.path = p := h2.2 (index, inst0) (lookupKey_mem hlk)
          rw [hpath]
        · exact Or.inr h'

/-! ### Claim C5 -/

/-- C5: across the process lifetime the burned-library vector never loses an
entry under any `PluginManager` operation (each operation appends, possibly
nothing); `finalize_unload` adds at most one entry per distinct
`burned_library_key` (the burn invariant — one entry per recorded key, keys
distinct — is preserved); hence any sequence of operations involving a single
plugin path `p` grows the set by at most one entry. -/
theorem burned_libraries_pinned (m : PluginManager) (op : PMOp) (p : String)
    (ops : List PMOp) (hinv : BurnInv m) (hpaths : PathsAll m p)
    (hops : ∀ o ∈ ops, OpsPath p o) :
    (∃ t, (applyOp m op).burned_libraries = m.burned_libraries ++ t) ∧
    BurnInv (applyOp m op) ∧
    (ops.foldl applyOp m).burned_libraries.length
      ≤ m.burned_libraries.length + 1 := by
  refine ⟨?_, applyOp_burninv m op hinv, ?_⟩
  · rcases applyOp_burned_cases m op with ⟨hl, _⟩ | ⟨_, inst0, _, _, _, hl, _⟩
    · exact ⟨[], by rw [hl, List.append_nil]⟩
    · exact ⟨[inst0.library], hl⟩
  · have h := foldl_burned_keys_sub p ops m hinv hpaths hops
    have hsubset : (ops.foldl applyOp m).burned_library_keys ⊆
        burned_library_key p :: m.burned_library_keys := by
      intro k hk
      rcases h.2.2 k hk with h' | h' <;> simp [h']
    have hlen := (List.subperm_of_subset h.1.2 hsubset).length_le
    have h1 := h.1.1
    have h2 := hinv.1
    simp only [List.length_cons] at hlen
    omega

/-- Witness for C5: one full load→begin-unload→finalize cycle of a single path
on the empty manager, then a second cycle, grows the burned set to exactly one
entry (≤ 0 + 1). -/
theorem burned_libraries_pinned_witness :
    BurnInv PluginManager.new ∧
    (([PMOp.load instW true none, PMOp.beginUnload "p", PMOp.finalizeUnload 0,
        PMOp.load instW true none, PMOp.beginUnload "p",
        PMOp.finalizeUnload 0].foldl applyOp PluginManager.new
      ).burned_libraries.length ≤ PluginManager.new.burned_libraries.length + 1) := by
  have h := burned_libraries_pinned PluginManager.new (PMOp.allocRt "p") "C:/x.vst3"
    [PMOp.load instW true none, PMOp.beginUnload "p", PMOp.finalizeUnload 0,
     PMOp.load instW true none, PMOp.beginUnload "p", PMOp.finalizeUnload 0]
    (by decide) (by decide) (by decide)
  exact ⟨by decide, h.2.2⟩

/-! ### Kill-switch lemmas (claim C2) -/

theorem getD_map_chan {α β : Type} (f : α → β) (l : List α) (i : ℕ) (d : α) (d' : β) :
    (l.map f).getD i d' = if i < l.length then f (l.getD i d) else d' := by
  by_cases h : i < l.length
  · rw [if_pos h, List.getD_eq_getElem _ _ (by simpa using h),
      List.getD_eq_getElem _ _ h, List.getElem_map]
  · rw [if_neg h, List.getD_eq_default]
    simpa using Nat.le_of_not_lt h

theorem getD_zeroFirst (n : ℕ) (b : Buf) (i : ℕ) :
    (zeroFirst n b).getD i 0 = if i < b.length then (if i < n then 0 else b.getD i 0)
      else 0 := by
  unfold zeroFirst
  rw [getD_mapWithIndex]

/-! ### Claim C2 -/

/-- C2: after `begin_unload id` succeeds, the parked instance's shared atomic
`active_flag` is `false`; and any `process_planar` call on a processor whose
`active_flag` reads `false` writes zeros into the first `num_samples` entries of
every (long-enough) output channel, leaves everything else untouched, and never
invokes the plugin's native `process` (the `Bool` component is `false`). -/
theorem kill_switch_silences (m m' : PluginManager) (id : String) (idx : ℕ)
    (p : RtProcessor) (native : ChanBuf → ChanBuf → ChanBuf)
    (inputs outputs : ChanBuf) (n : ℕ)
    (hbu : m.begin_unload id = (m', Except.ok idx))
    (hp : p.active_flag = false) :
    (lookupKey idx m'.pending_drop_by_index).map VstInstance.active_flag
      = some false ∧
    (processPlanar p native inputs outputs n).2 = false ∧
    (processPlanar p native inputs outputs n).1.length = outputs.length ∧
    (∀ ch i, i < n → n ≤ (outputs.getD ch []).length →
      ((processPlanar p native inputs outputs n).1.getD ch []).getD i 0 = 0) ∧
    (∀ ch i, n ≤ i →
      ((processPlanar p native inputs outputs n).1.getD ch []).getD i 0
        = (outputs.getD ch []).getD i 0) ∧
    (∀ ch, (outputs.getD ch []).length < n →
      (processPlanar p native inputs outputs n).1.getD ch [] = outputs.getD ch []) := by
  have hpp : processPlanar p native inputs outputs n
      = (outputs.map (fun ch => if n ≤ ch.length then zeroFirst n ch else ch), false) := by
    unfold processPlanar
    rw [if_pos hp]
  have hflag : (lookupKey idx m'.pending_drop_by_index).map VstInstance.active_flag
      = some false := by
    unfold PluginManager.begin_unload PluginManager.rt_index_of at hbu
    rcases hidx : lookupKey id m.rt_index_by_id with _ | idx1
    · rw [hidx] at hbu
      simp at hbu
    · rw [hidx] at hbu
      rcases hins : lookupKey id m.plugins with _ | inst0
      · rw [hins] at hbu
        simp at hbu
      · rw [hins] at hbu
        simp only [Prod.mk.injEq] at hbu
        have hm' := hbu.1.symm
        have hidx' : idx1 = idx := Except.ok.inj hbu.2
        subst hidx'
        subst hm'
        rw [lookupKey_insertKey]
        rfl
  refine ⟨hflag, by rw [hpp], by rw [hpp]; exact List.length_map _ _, ?_, ?_, ?_⟩
  · intro ch i hi hlen
    rw [hpp]
    simp only []
    rw [getD_map_chan _ _ _ ([] : Buf)]
    by_cases hch : ch < outputs.length
    · rw [if_pos hch, if_pos hlen, getD_zeroFirst]
      have hi' : i < (outputs.getD ch []).length := lt_of_lt_of_le hi hlen
      rw [if_pos hi', if_pos hi]
    · rw [if_neg hch]
      simp
  · intro ch i hi
    rw [hpp]
    simp only []
    rw [getD_map_chan _ _ _ ([] : Buf)]
    by_cases hch : ch < outputs.length
    · rw [if_pos hch]
      by_cases hlen : n ≤ (outputs.getD ch []).length
      · rw [if_pos hlen, getD_zeroFirst]
        by_cases hi' : i < (outputs.getD ch []).length
        · rw [if_pos hi', if_neg (by omega)]
        · rw [if_neg hi', List.getD_eq_default _ _ (Nat.le_of_not_lt hi')]
      · rw [if_neg hlen]
    · rw [if_neg hch, List.getD_eq_default _ _ (Nat.le_of_not_lt hch)]
  · intro ch hshort
    rw [hpp]
    simp only []
    rw [getD_map_chan _ _ _ ([] : Buf)]
    by_cases hch : ch < outputs.length
    · rw [if_pos hch, if_neg (by omega)]
    · rw [if_neg hch, List.getD_eq_default _ _ (Nat.le_of_not_lt hch)]

/-- Witness for C2: concrete manager unload plus a concrete dead processor call
on `[[5, 7], [9]]` with 1 requested frame. -/
theorem kill_switch_silences_witness :
    ({ active_flag := false, ptr_null := false, max_block_size := 4096
        : RtProcessor }.active_flag = false) ∧
    (processPlanar { active_flag := false, ptr_null := false, max_block_size := 4096 }
        (fun i _ => i) [[1, 2]] [[5, 7], [9]] 1).2 = false ∧
    ((processPlanar { active_flag := false, ptr_null := false, max_block_size := 4096 }
        (fun i _ => i) [[1, 2]] [[5, 7], [9]] 1).1.getD 0 []).getD 0 0 = 0 := by
  have h := kill_switch_silences managerW ((managerW.begin_unload "p").1) "p" 0
    { active_flag := false, ptr_null := false, max_block_size := 4096 }
    (fun i _ => i) [[1, 2]] [[5, 7], [9]] 1 rfl rfl
  exact ⟨rfl, h.2.1, h.2.2.2.1 0 0 (by decide) (by decide)⟩

/-! ### Smoother lemmas -/

theorem Smoother.next_target (s : Smoother) : s.next.1.target = s.target := by
  unfold next
  split <;> rfl

theorem Smoother.next_coeff (s : Smoother) : s.next.1.coeff = s.coeff := by
  unfold next
  split <;> rfl

theorem Smoother.iter_target (s : Smoother) (n : ℕ) : (s.iter n).target = s.target := by
  induction n with
  | zero => rfl
  | succ n ih => rw [iter, next_target, ih]

theorem Smoother.iter_coeff (s : Smoother) (n : ℕ) : (s.iter n).coeff = s.coeff := by
  induction n with
  | zero => rfl
  | succ n ih => rw [iter, next_coeff, ih]

theorem Smoother.next_dist (s : Smoother) (hc : s.coeff = 1 / 200) :
    |s.next.1.current - s.target| ≤ |s.current - s.target| * (199 / 200) := by
  unfold next
  split
  · simp only [sub_self, abs_zero]
    positivity
  · have h : s.current + (s.target - s.current) * s.coeff - s.target
        = (s.current - s.target) * (199 / 200) := by
      rw [hc]; ring
    simp only [h, abs_mul]
    rw [abs_of_nonneg (by norm_num : (0:ℚ) ≤ 199 / 200)]

theorem Smoother.next_mono_le (s : Smoother) (hc : s.coeff = 1 / 200)
    (h : s.current ≤ s.target) :
    s.current ≤ s.next.1.current ∧ s.next.1.current ≤ s.target := by
  unfold next
  split
  · exact ⟨h, le_refl _⟩
  · have hd : 0 ≤ s.target - s.current := by linarith
    constructor
    · have : 0 ≤ (s.target - s.current) * s.coeff := by
        rw [hc]; positivity
      simp only []
      linarith
    · have : 0 ≤ (s.target - s.current) * (199 / 200) := by positivity
      simp only []
      rw [hc]
      linarith

theorem Smoother.next_mono_ge (s : Smoother) (hc : s.coeff = 1 / 200)
    (h : s.target ≤ s.current) :
    s.next.1.current ≤ s.current ∧ s.target ≤ s.next.1.current := by
  unfold next
  split
  · exact ⟨h, le_refl _⟩
  · have hd : 0 ≤ s.current - s.target := by linarith
    constructor
    · have : 0 ≤ (s.current - s.target) * s.coeff := by
        rw [hc]; positivity
      simp only []
      linarith [this]
    · have : 0 ≤ (s.current - s.target) * (199 / 200) := by positivity
      simp only []
      rw [hc]
      linarith

theorem Smoother.iter_le_target (s : Smoother) (hc : s.coeff = 1 / 200)
    (h : s.current ≤ s.target) (n : ℕ) : (s.iter n).current ≤ s.target := by
  induction n with
  | zero => exact h
  | succ n ih =>
    have h2 := next_mono_le (s.iter n) (by rw [iter_coeff]; exact hc)
      (by rw [iter_target]; exact ih)
    rw [iter]
    rw [iter_target] at h2
    exact h2.2

theorem Smoother.target_le_iter (s : Smoother) (hc : s.coeff = 1 / 200)
    (h : s.target ≤ s.current) (n : ℕ) : s.target ≤ (s.iter n).current := by
  induction n with
  | zero => exact h
  | succ n ih =>
    have h2 := next_mono_ge (s.iter n) (by rw [iter_coeff]; exact hc)
      (by rw [iter_target]; exact ih)
    rw [iter]
    rw [iter_target] at h2
    exact h2.2

theorem Smoother.iter_dist (s : Smoother) (hc : s.coeff = 1 / 200) (n : ℕ) :
    |(s.iter n).current - s.target| ≤ |s.current - s.target| * (199 / 200) ^ n := by
  induction n with
  | zero => simp [iter]
  | succ n ih =>
    have h2 := next_dist (s.iter n) (by rw [iter_coeff]; exact hc)
    rw [iter_target] at h2
    rw [iter, pow_succ, ← mul_assoc]
    calc |(s.iter n).next.1.current - s.target|
        ≤ |(s.iter n).current - s.target| * (199 / 200) := h2
      _ ≤ |s.current - s.target| * (199 / 200) ^ n * (199 / 200) := by
          exact mul_le_mul_of_nonneg_right ih (by norm_num)

theorem Smoother.iter_fixed (s : Smoother) (n : ℕ) (h : (s.iter n).current = s.target)
    (m : ℕ) : (s.iter (n + m)).current = s.target := by
  induction m with
  | zero => exact h
  | succ m ih =>
    have h2 : s.iter (n + (m + 1)) = (s.iter (n + m)).next.1 := by
      rw [show n + (m + 1) = (n + m) + 1 by omega, iter]
    rw [h2]
    unfold next
    rw [iter_target] at *
    rw [ih]
    simp

theorem Smoother.converges (s : Smoother) (hc : s.coeff = 1 / 200) :
    ∃ N, ∀ n, N ≤ n → (s.iter n).current = s.target := by
  obtain ⟨n₀, hn₀⟩ := exists_pow_lt_of_lt_one
    (show (0:ℚ) < (1 / 10000) / (|s.current - s.target| + 1) by positivity)
    (show (199:ℚ) / 200 < 1 by norm_num)
  have habs : (0:ℚ) < |s.current - s.target| + 1 := by positivity
  have hdist : |(s.iter n₀).current - s.target| < 1 / 10000 := by
    have h1 := iter_dist s hc n₀
    have h2 : |s.current - s.target| * (199 / 200) ^ n₀
        < (|s.current - s.target| + 1) * ((1 / 10000) / (|s.current - s.target| + 1)) := by
      have hle : |s.current - s.target| * (199 / 200) ^ n₀
          ≤ (|s.current - s.target| + 1) * (199 / 200) ^ n₀ := by
        apply mul_le_mul_of_nonneg_right (by linarith [abs_nonneg (s.current - s.target)])
        positivity
      have hlt : (|s.current - s.target| + 1) * (199 / 200) ^ n₀
          < (|s.current - s.target| + 1) * ((1 / 10000) / (|s.current - s.target| + 1)) :=
        mul_lt_mul_of_pos_left hn₀ habs
      linarith
    have h3 : (|s.current - s.target| + 1) * ((1 / 10000) / (|s.current - s.target| + 1))
        = 1 / 10000 := by
      field_simp
      ring
    linarith
  refine ⟨n₀ + 1, fun n hn => ?_⟩
  have hsnap : (s.iter (n₀ + 1)).current = s.target := by
    rw [iter]
    unfold next
    rw [iter_target]
    rw [if_pos hdist]
  have h4 := iter_fixed s (n₀ + 1) hsnap (n - (n₀ + 1))
  rwa [show n₀ + 1 + (n - (n₀ + 1)) = n by omega] at h4

/-! ### Claim C4 -/

/-- C4: after `set_target t`, the per-sample smoothed gain sequence produced by
repeated `Smoother::next` is monotonic from the current value toward `t`
(never overshoots or oscillates: nondecreasing and bounded by `t` when starting
below, nonincreasing and bounded below by `t` when starting above), and reaches
exactly `t` after a bounded number of samples (from some `N` on, the value is
exactly `t`). -/
theorem smoother_monotone_and_converges (s : Smoother) (t : ℚ)
    (hc : s.coeff = 1 / 200) :
    (s.current ≤ t →
      ∀ n, ((s.set_target t).iter n).current ≤ ((s.set_target t).iter (n + 1)).current ∧
        ((s.set_target t).iter n).current ≤ t) ∧
    (t ≤ s.current →
      ∀ n, ((s.set_target t).iter (n + 1)).current ≤ ((s.set_target t).iter n).current ∧
        t ≤ ((s.set_target t).iter n).current) ∧
    (∃ N, ∀ n, N ≤ n → ((s.set_target t).iter n).current = t) := by
  have hc' : (s.set_target t).coeff = 1 / 200 := hc
  have ht : (s.set_target t).target = t := rfl
  refine ⟨fun h n => ?_, fun h n => ?_, ?_⟩
  · have hle := Smoother.iter_le_target (s.set_target t) hc' h n
    have hstep := Smoother.next_mono_le ((s.set_target t).iter n)
      (by rw [Smoother.iter_coeff]; exact hc')
      (by rw [Smoother.iter_target]; exact hle)
    rw [Smoother.iter_target, ht] at hstep
    exact ⟨by rw [Smoother.iter]; exact hstep.1, hle⟩
  · have hge := Smoother.target_le_iter (s.set_target t) hc' h n
    have hstep := Smoother.next_mono_ge ((s.set_target t).iter n)
      (by rw [Smoother.iter_coeff]; exact hc')
      (by rw [Smoother.iter_target]; exact hge)
    rw [Smoother.iter_target, ht] at hstep
    exact ⟨by rw [Smoother.iter]; exact hstep.1, hge⟩
  · exact Smoother.converges (s.set_target t) hc'

/-- Witness for C4 at a concrete smoother: `Smoother::new 0` retargeted to 1. -/
theorem smoother_monotone_and_converges_witness :
    (Smoother.new 0).coeff = 1 / 200 ∧
    (∃ N, ∀ n, N ≤ n → (((Smoother.new 0).set_target 1).iter n).current = 1) :=
  ⟨rfl, (smoother_monotone_and_converges (Smoother.new 0) 1 rfl).2.2⟩

/-! ### Claim C10 -/

/-- C10: `SetNoiseReduction` normalises the mode case-insensitively after
trimming: exactly the value `"high"` (any letter case, surrounding whitespace)
selects mode `"high"` with wet mix 1.0; every other value (absence, empty
string, unrecognised word) selects `"low"` with wet mix 0.6; the command never
errors (it always produces a normalised mode plus mix, for any input). -/
theorem set_noise_reduction_normalisation (active : Bool) (mode : Option (List Char)) :
    ((setNoiseReductionCmd active mode).1 = NOISE_REDUCTION_MODE_HIGH ↔
      ∃ s, mode = some s ∧
        (trimChars s).map asciiLowerChar = NOISE_REDUCTION_MODE_HIGH) ∧
    ((setNoiseReductionCmd active mode).1 = NOISE_REDUCTION_MODE_HIGH ∨
      (setNoiseReductionCmd active mode).1 = NOISE_REDUCTION_MODE_LOW) ∧
    ((setNoiseReductionCmd active mode).1 = NOISE_REDUCTION_MODE_HIGH →
      (setNoiseReductionCmd active mode).2.2 = 1) ∧
    ((setNoiseReductionCmd active mode).1 = NOISE_REDUCTION_MODE_LOW →
      (setNoiseReductionCmd active mode).2.2 = 3 / 5) ∧
    (setNoiseReductionCmd active mode).2.1 = active := by
  have hmix : (setNoiseReductionCmd active mode).2.2
      = noise_reduction_mix_from_mode ((setNoiseReductionCmd active mode).1) := rfl
  cases mode with
  | none =>
    have h1 : (setNoiseReductionCmd active none).1 = NOISE_REDUCTION_MODE_LOW := rfl
    refine ⟨⟨fun h => absurd (h1.symm.trans h) (by decide), ?_⟩, Or.inr h1,
      fun h => absurd (h1.symm.trans h) (by decide), fun _ => ?_, rfl⟩
    · rintro ⟨s, hs, _⟩
      exact Option.noConfusion hs
    · rw [hmix, h1]
      exact if_neg (by decide)
  | some m =>
    have h1 : (setNoiseReductionCmd active (some m)).1
        = (if (trimChars m).map asciiLowerChar = NOISE_REDUCTION_MODE_HIGH
            then NOISE_REDUCTION_MODE_HIGH else NOISE_REDUCTION_MODE_LOW) := rfl
    by_cases h : (trimChars m).map asciiLowerChar = NOISE_REDUCTION_MODE_HIGH
    · rw [if_pos h] at h1
      refine ⟨⟨fun _ => ⟨m, rfl, h⟩, fun _ => h1⟩, Or.inl h1, fun _ => ?_,
        fun hl => absurd (h1.symm.trans hl) (by decide), rfl⟩
      rw [hmix, h1]
      exact if_pos rfl
    · rw [if_neg h] at h1
      refine ⟨⟨fun hh => absurd (h1.symm.trans hh) (by decide), ?_⟩, Or.inr h1,
        fun hh => absurd (h1.symm.trans hh) (by decide), fun _ => ?_, rfl⟩
      · rintro ⟨s, hs, hmap⟩
        cases hs
        exact absurd hmap h
      · rw [hmix, h1]
        exact if_neg (by decide)

/-- Witness for C10 at a concrete input: mixed case with a leading form feed
(U+000C) and a trailing space, both stripped by `str::trim`. -/
theorem set_noise_reduction_normalisation_witness :
    (setNoiseReductionCmd true (some ['\x0C', 'H', 'i', 'G', 'h', ' '])).1 =
        NOISE_REDUCTION_MODE_HIGH ∧
    (setNoiseReductionCmd true (some ['\x0C', 'H', 'i', 'G', 'h', ' '])).2.2 = 1 := by
  have h := set_noise_reduction_normalisation true
    (some ['\x0C', 'H', 'i', 'G', 'h', ' '])
  have hhigh : (setNoiseReductionCmd true
      (some ['\x0C', 'H', 'i', 'G', 'h', ' '])).1 =
      NOISE_REDUCTION_MODE_HIGH := by decide
  exact ⟨hhigh, h.2.2.1 hhigh⟩

/-! ### Resampler lemmas (claim C8) -/

theorem resampleFrames_spec (convert : List (List ℚ) → List (List ℚ))
    (chunk channels : ℕ) (hchunk : 0 < chunk) (frames : List (List ℚ)) :
    ∀ (acc : List (List ℚ)) (collected : ℕ), collected < chunk →
      (resampleFrames convert chunk channels frames acc collected).2.2.1
          = (collected + frames.length) % chunk ∧
      (resampleFrames convert chunk channels frames acc collected).2.2.2
          = (collected + frames.length) / chunk ∧
      (collected + frames.length < chunk →
        (resampleFrames convert chunk channels frames acc collected).1 = []) := by
  induction frames with
  | nil =>
    intro acc c hc
    refine ⟨?_, ?_, fun _ => rfl⟩
    · simp [resampleFrames, Nat.mod_eq_of_lt hc]
    · simp [resampleFrames, Nat.div_eq_of_lt hc]
  | cons frame rest ih =>
    intro acc c hc
    simp only [resampleFrames]
    by_cases hfull : c + 1 = chunk
    · rw [if_pos hfull]
      have ihr := ih (writeFrame c frame acc) 0 hchunk
      have harith : c + (rest.length + 1) = chunk + rest.length := by omega
      refine ⟨?_, ?_, fun habs => ?_⟩
      · simp only [List.length_cons, harith, Nat.add_mod_left]
        simpa using ihr.1
      · simp only [List.length_cons, harith]
        rw [Nat.add_div_left _ hchunk]
        have h2 := ihr.2.1
        simp only [Nat.zero_add] at h2
        omega
      · simp only [List.length_cons] at habs
        omega
    · rw [if_neg hfull]
      have hc1 : c + 1 < chunk := by omega
      have ihr := ih (writeFrame c frame acc) (c + 1) hc1
      have harith : c + (rest.length + 1) = (c + 1) + rest.length := by omega
      refine ⟨?_, ?_, fun hsmall => ?_⟩
      · simp only [List.length_cons, harith]
        exact ihr.1
      · simp only [List.length_cons, harith]
        exact ihr.2.1
      · simp only [List.length_cons] at hsmall
        exact ihr.2.2 (by omega)

/-! ### Claim C8 -/

/-- C8: `StreamResampler::process` buffers partial input: when the accumulated
frames plus `input.len() / channels` new frames stay below the fixed input
chunk size, the call returns an empty output vector, performs no conversion,
and only grows the accumulation count; in general the conversion is invoked
exactly once per completed chunk (`(collected + frames_in) / chunk` times), and
after every call the accumulated frame count equals the total frames seen
modulo the chunk size — in particular it stays strictly below the chunk
size. -/
theorem stream_resampler_process_spec (convert : List (List ℚ) → List (List ℚ))
    (chunk channels : ℕ) (acc : List (List ℚ)) (collected : ℕ) (input : List ℚ)
    (hchunk : 0 < chunk) (hcol : collected < chunk) :
    (streamResamplerProcess convert chunk channels acc collected input).2.2.1
        = (collected + input.length / channels) % chunk ∧
    (streamResamplerProcess convert chunk channels acc collected input).2.2.1
        < chunk ∧
    (streamResamplerProcess convert chunk channels acc collected input).2.2.2
        = (collected + input.length / channels) / chunk ∧
    (collected + input.length / channels < chunk →
      (streamResamplerProcess convert chunk channels acc collected input).1 = [] ∧
      (streamResamplerProcess convert chunk channels acc collected input).2.2.2 = 0 ∧
      (streamResamplerProcess convert chunk channels acc collected input).2.2.1
        = collected + input.length / channels) := by
  have hlen : (framesOf channels input).length = input.length / channels := by
    simp [framesOf]
  have h := resampleFrames_spec convert chunk channels hchunk
    (framesOf channels input) acc collected hcol
  rw [hlen] at h
  unfold streamResamplerProcess
  refine ⟨h.1, ?_, h.2.1, fun hsmall => ⟨h.2.2 hsmall, ?_, ?_⟩⟩
  · rw [h.1]
    exact Nat.mod_lt _ hchunk
  · rw [h.2.1]
    exact Nat.div_eq_of_lt hsmall
  · rw [h.1]
    exact Nat.mod_eq_of_lt hsmall

/-- Witness for C8: chunk size 4, stereo; one call with 1 frame buffers it (no
output, no conversion), and the parameters satisfy the preconditions. -/
theorem stream_resampler_process_spec_witness :
    ((0:ℕ) < 4 ∧ (1:ℕ) < 4) ∧
    (streamResamplerProcess (fun a => a) 4 2 [[0, 0, 0, 0], [0, 0, 0, 0]] 1
        [5, 7]).1 = [] ∧
    (streamResamplerProcess (fun a => a) 4 2 [[0, 0, 0, 0], [0, 0, 0, 0]] 1
        [5, 7]).2.2.1 = 2 := by
  have h := stream_resampler_process_spec (fun a => a) 4 2
    [[0, 0, 0, 0], [0, 0, 0, 0]] 1 [5, 7] (by decide) (by decide)
  have hsmall : (1:ℕ) + ([5, 7] : List ℚ).length / 2 < 4 := by decide
  exact ⟨⟨by decide, by decide⟩, (h.2.2.2 hsmall).1,
    by rw [(h.2.2.2 hsmall).2.2]; decide⟩

/-! ### Channel-scan lemmas (claim C9) -/

theorem getD_range (n i d : ℕ) : (List.range n).getD i d = if i < n then i else d := by
  by_cases h : i < n
  · rw [if_pos h, List.getD_eq_getElem _ _ (by simpa using h)]
    simp
  · rw [if_neg h, List.getD_eq_default]
    simpa using Nat.le_of_not_lt h

theorem getD_scanSnapshot (channels : ℕ) (peaks : List ℚ) (i : ℕ) :
    (scanSnapshot channels peaks).getD i 0
      = if i < 32 then (if i < min channels 32 then peaks.getD i 0 else 0) else 0 := by
  unfold scanSnapshot
  rw [getD_map_chan _ _ _ (0 : ℕ)]
  simp only [List.length_range]
  by_cases h : i < 32
  · rw [if_pos h, if_pos h, getD_range, if_pos h]
  · rw [if_neg h, if_neg h]

theorem filter_range_last (mq : ℕ) (hmq : 0 < mq) :
    ((List.range mq).filter (fun j => decide (j + 1 = mq))).length = 1 := by
  obtain ⟨n, rfl⟩ : ∃ n, mq = n + 1 := ⟨mq - 1, by omega⟩
  rw [List.range_succ, List.filter_append]
  have h1 : (List.range n).filter (fun j => decide (j + 1 = n + 1)) = [] := by
    rw [List.filter_eq_nil_iff]
    intro a ha
    have := List.mem_range.1 ha
    simp only [decide_eq_true_eq]
    omega
  rw [h1]
  simp

theorem scan_throttle (f w : ℕ) (hf : 0 < f) (hdvd : f ∣ 4800) :
    ((List.range (4800 / f)).filter
      (fun j => shouldEmitScan ((w * (4800 / f) + j + 1) * f) f)).length = 1 := by
  have hm : 4800 / f * f = 4800 := Nat.div_mul_cancel hdvd
  have hmq : 0 < 4800 / f := by
    rcases Nat.eq_zero_or_pos (4800 / f) with h | h
    · rw [h] at hm
      simp at hm
    · exact h
  have hcongr : ∀ j ∈ List.range (4800 / f),
      shouldEmitScan ((w * (4800 / f) + j + 1) * f) f = decide (j + 1 = 4800 / f) := by
    intro j hj
    have hjlt := List.mem_range.1 hj
    unfold shouldEmitScan
    have e2 : w * (4800 / f) + j + 1 = (j + 1) + w * (4800 / f) := by omega
    have e1 : (w * (4800 / f) + j + 1) * f % 4800
        = ((j + 1) % (4800 / f)) * f := by
      calc (w * (4800 / f) + j + 1) * f % 4800
          = (w * (4800 / f) + j + 1) * f % (4800 / f * f) := by rw [hm]
        _ = ((w * (4800 / f) + j + 1) % (4800 / f)) * f :=
            Nat.mul_mod_mul_right _ _ _
        _ = ((j + 1) % (4800 / f)) * f := by
            rw [e2, Nat.add_mul_mod_self_right]
    rw [e1]
    rcases Nat.lt_or_ge (j + 1) (4800 / f) with hlt | hge
    · rw [Nat.mod_eq_of_lt hlt]
      have hjf : f ≤ (j + 1) * f := by
        calc f = 1 * f := (one_mul f).symm
        _ ≤ (j + 1) * f := Nat.mul_le_mul_right f (by omega)
      simp only [decide_eq_decide]
      constructor
      · intro hc
        omega
      · intro hc
        omega
    · have hje : j + 1 = 4800 / f := by omega
      rw [hje, Nat.mod_self]
      simp [hf, hje]
  rw [List.filter_congr hcongr]
  exact filter_range_last _ hmq

/-! ### Claim C9 -/

/-- C9: with channel scan enabled, the snapshot pushed as a `ChannelLevels`
event has exactly 32 entries, carries the measured peaks exactly in its first
`min(channel_count, 32)` entries (8 for an 8-channel input), every entry at or
beyond that limit is exactly 0, and the `current_frames % 4800 < frames`
throttle fires exactly once per 4800-frame window (one callback out of every
`4800 / f` for a fixed block size `f` dividing 4800 — ~10 Hz at 48 kHz). -/
theorem channel_scan_levels (scanEnabled : Bool) (channels frames : ℕ) (gain : ℚ)
    (input : List ℚ) (f w : ℕ) (hf : 0 < f) (hdvd : f ∣ 4800) :
    (∀ i, min channels 32 ≤ i →
      (scanSnapshot channels
        (scanPeaks scanEnabled channels frames gain input)).getD i 0 = 0) ∧
    (∀ i, i < min channels 32 →
      (scanSnapshot channels
          (scanPeaks scanEnabled channels frames gain input)).getD i 0
        = (scanPeaks scanEnabled channels frames gain input).getD i 0) ∧
    (scanSnapshot channels (scanPeaks scanEnabled channels frames gain input)).length
        = 32 ∧
    ((List.range (4800 / f)).filter
      (fun j => shouldEmitScan ((w * (4800 / f) + j + 1) * f) f)).length = 1 := by
  refine ⟨fun i hi => ?_, fun i hi => ?_, ?_, scan_throttle f w hf hdvd⟩
  · rw [getD_scanSnapshot]
    by_cases h32 : i < 32
    · rw [if_pos h32, if_neg (by omega)]
    · rw [if_neg h32]
  · rw [getD_scanSnapshot, if_pos (by omega), if_pos hi]
  · unfold scanSnapshot
    simp

/-- Witness for C9: an 8-channel block; entry 10 of the snapshot is zero, and
480-frame callbacks at 48 kHz emit exactly one snapshot per window. -/
theorem channel_scan_levels_witness :
    ((0:ℕ) < 480 ∧ (480:ℕ) ∣ 4800) ∧
    (scanSnapshot 8 (scanPeaks true 8 2 1 [1, 2, 3, 4, 5, 6, 7, 8])).getD 10 0 = 0 ∧
    ((List.range (4800 / 480)).filter
      (fun j => shouldEmitScan ((3 * (4800 / 480) + j + 1) * 480) 480)).length = 1 := by
  have h := channel_scan_levels true 8 2 1 [1, 2, 3, 4, 5, 6, 7, 8] 480 3
    (by decide) (by decide)
  exact ⟨⟨by decide, by decide⟩, h.1 10 (by decide), h.2.2.2⟩

/-! ### Global-mute lemmas (claim C7) -/

theorem foldl_max_abs_ge_init (g : ℕ → ℚ) (l : List ℕ) (a : ℚ) :
    a ≤ l.foldl (fun acc i => max acc |g i|) a := by
  induction l generalizing a with
  | nil => exact le_refl a
  | cons x xs ih =>
    simp only [List.foldl_cons]
    exact le_trans (le_max_left a |g x|) (ih (max a |g x|))

theorem foldl_max_abs_ge_mem (g : ℕ → ℚ) (l : List ℕ) :
    ∀ (a : ℚ) (i : ℕ), i ∈ l → |g i| ≤ l.foldl (fun acc j => max acc |g j|) a := by
  induction l with
  | nil =>
    intro a i hi
    simp at hi
  | cons x xs ih =>
    intro a i hi
    simp only [List.foldl_cons]
    rcases List.mem_cons.1 hi with h | h
    · subst h
      exact le_trans (le_max_right a |g i|) (foldl_max_abs_ge_init g xs _)
    · exact ih _ i h

theorem inputPeak_pos (input : List ℚ) (gain : ℚ) (channels frames sel : ℕ)
    (h : ∃ i, i < frames ∧ routedSample input gain channels i sel ≠ 0) :
    0 < inputPeak input gain channels frames sel := by
  obtain ⟨i, hi, hne⟩ := h
  unfold inputPeak
  have h1 := foldl_max_abs_ge_mem (fun i => routedSample input gain channels i sel)
    (List.range frames) 0 i (List.mem_range.2 hi)
  have h2 : 0 < |routedSample input gain channels i sel| := abs_pos.2 hne
  calc (0:ℚ) < |routedSample input gain channels i sel| := h2
    _ ≤ _ := h1

/-! ### Claim C7 -/

/-- C7: in a callback with global mute active, the entire output block is
zeroed (every sample of the `dataLen`-sized interleaved buffer) and the meter
message reports output levels `[0, 0]` while still carrying the measured input
peaks — which are strictly positive whenever some routed input sample in the
block is non-zero. -/
theorem global_mute_output (fb : ChanBuf) (frames channels : ℕ) (input : List ℚ)
    (gain : ℚ) (outGain : Smoother) (tL tR selL selR dataLen : ℕ)
    (hin : ∃ i, i < frames ∧ routedSample input gain channels i selL ≠ 0) :
    (outputStage true fb frames channels
        (inputPeak input gain channels frames selL)
        (inputPeak input gain channels frames selR) outGain tL tR dataLen).1
      = List.replicate dataLen 0 ∧
    (∀ i, ((outputStage true fb frames channels
        (inputPeak input gain channels frames selL)
        (inputPeak input gain channels frames selR) outGain tL tR dataLen).1).getD i 0
      = 0) ∧
    (outputStage true fb frames channels
        (inputPeak input gain channels frames selL)
        (inputPeak input gain channels frames selR) outGain tL tR dataLen).2.2
      = { inputL := inputPeak input gain channels frames selL,
          inputR := inputPeak input gain channels frames selR,
          outputL := 0, outputR := 0 } ∧
    0 < inputPeak input gain channels frames selL := by
  have hmute : outputStage true fb frames channels
      (inputPeak input gain channels frames selL)
      (inputPeak input gain channels frames selR) outGain tL tR dataLen
      = (List.replicate dataLen 0, outGain,
         { inputL := inputPeak input gain channels frames selL,
           inputR := inputPeak input gain channels frames selR,
           outputL := 0, outputR := 0 }) := by
    unfold outputStage
    rw [if_pos rfl]
  refine ⟨by rw [hmute], fun i => ?_, by rw [hmute], inputPeak_pos _ _ _ _ _ hin⟩
  rw [hmute]
  by_cases h : i < dataLen
  · rw [List.getD_eq_getElem _ _ (by simpa using h)]
    simp
  · rw [List.getD_eq_default]
    simpa using Nat.le_of_not_lt h

/-- Witness for C7: a concrete muted block with non-zero routed input. -/
theorem global_mute_output_witness :
    ((0:ℕ) < 2 ∧ routedSample [1, 2, 3, 4] 1 2 0 0 ≠ 0) ∧
    (outputStage true [[9, 9], [9, 9]] 2 2
        (inputPeak [1, 2, 3, 4] 1 2 2 0) (inputPeak [1, 2, 3, 4] 1 2 2 1)
        (Smoother.new 1) 0 1 4).1 = List.replicate 4 0 ∧
    0 < inputPeak [1, 2, 3, 4] 1 2 2 0 := by
  have hin : ∃ i, i < 2 ∧ routedSample [1, 2, 3, 4] 1 2 i 0 ≠ 0 :=
    ⟨0, by norm_num, by norm_num [routedSample]⟩
  have h := global_mute_output [[9, 9], [9, 9]] 2 2 [1, 2, 3, 4] 1
    (Smoother.new 1) 0 1 0 1 4 hin
  exact ⟨⟨by norm_num, by norm_num [routedSample]⟩, h.1, h.2.2.2⟩

/-! ### Chain-loop lemmas (claim C3) -/

theorem get?_eq_some_getD {α : Type} {l : List α} {i : ℕ} (h : i < l.length) (d : α) :
    l.get? i = some (l.getD i d) := by
  rw [List.get?_eq_getElem?, List.getElem?_eq_getElem h, List.getD_eq_getElem _ _ h]

theorem getD_take_of_lt (l : Buf) (n i : ℕ) (hi : i < n) (hl : i < l.length) :
    (l.take n).getD i 0 = l.getD i 0 := by
  have hlen : i < (l.take n).length := by
    simp only [List.length_take]
    omega
  rw [List.getD_eq_getElem _ _ hlen, List.getD_eq_getElem _ _ hl]
  exact List.getElem_take _

theorem chanGet_bypassCopy (channels frames : ℕ) (inb outb : ChanBuf) (ch i : ℕ)
    (hch : ch < channels) (hchi : ch < inb.length) (hcho : ch < outb.length)
    (hli : frames ≤ (inb.getD ch []).length) (hlo : frames ≤ (outb.getD ch []).length)
    (hi : i < frames) :
    chanGet (bypassCopy channels frames inb outb) ch i = chanGet inb ch i := by
  unfold chanGet bypassCopy
  rw [getD_mapWithIndex, if_pos hcho, if_pos hch, get?_eq_some_getD hchi []]
  dsimp only []
  rw [if_pos ⟨hli, hlo⟩]
  unfold copyFirst
  rw [List.getD_append _ _ _ _ (by simp only [List.length_take]; omega)]
  exact getD_take_of_lt _ _ _ hi (by omega)

theorem chanGet_muteZero (channels frames : ℕ) (b : ChanBuf) (ch i : ℕ)
    (hch : ch < channels) (hi : i < frames) :
    chanGet (muteZero channels frames b) ch i = 0 := by
  unfold chanGet muteZero
  rw [getD_mapWithIndex]
  by_cases hchb : ch < b.length
  · rw [if_pos hchb, if_pos hch, getD_zeroFirst]
    by_cases hib : i < (b.getD ch []).length
    · rw [if_pos hib, if_pos hi]
    · rw [if_neg hib]
  · rw [if_neg hchb]
    simp

/-! ### Claim C3 -/

/-- C3: in the plugin-chain loop, for any in-range order entry: a bypassed slot
toggles the ping-pong marker, leaves the read buffer untouched, calls no
processor, and its new current buffer carries a verbatim copy of the old
current buffer's first `channels` channels over the first `frames` samples; a
muted slot keeps the marker, leaves the other buffer untouched, calls no
processor, and zeroes the current buffer's first `channels` channels in place;
an installed processor reads the current buffer, leaves it untouched as the new
other buffer, toggles the marker, is recorded as invoked, and the new current
buffer is its output (gain-smoothed when the slot's smoother is off 1); an
empty slot changes nothing; and with global bypass set the whole chain loop is
skipped, returning the state unchanged. -/
theorem chain_loop_semantics (channels frames : ℕ) (bypassed muted : List Bool)
    (procs : List (Option ProcFn)) (st : ChainState) (idx : ℕ)
    (activeCount : ℕ) (order : List ℕ) (hidx : idx < MAX_PLUGINS) :
    (chainRun true activeCount order channels frames bypassed muted procs st = st) ∧
    (bypassed.getD idx false = true →
      (chainStep channels frames bypassed muted procs st idx).srcIsA = !st.srcIsA ∧
      (chainStep channels frames bypassed muted procs st idx).oth = st.cur ∧
      (chainStep channels frames bypassed muted procs st idx).invoked = st.invoked ∧
      (∀ ch i, ch < channels → ch < st.cur.length → ch < st.oth.length →
        frames ≤ (st.cur.getD ch []).length → frames ≤ (st.oth.getD ch []).length →
        i < frames →
        chanGet (chainStep channels frames bypassed muted procs st idx).cur ch i
          = chanGet st.cur ch i)) ∧
    (bypassed.getD idx false = false → muted.getD idx false = true →
      (chainStep channels frames bypassed muted procs st idx).srcIsA = st.srcIsA ∧
      (chainStep channels frames bypassed muted procs st idx).oth = st.oth ∧
      (chainStep channels frames bypassed muted procs st idx).invoked = st.invoked ∧
      (∀ ch i, ch < channels → i < frames →
        chanGet (chainStep channels frames bypassed muted procs st idx).cur ch i
          = 0)) ∧
    (∀ procF, bypassed.getD idx false = false → muted.getD idx false = false →
      procs.getD idx none = some procF →
      (chainStep channels frames bypassed muted procs st idx).srcIsA = !st.srcIsA ∧
      (chainStep channels frames bypassed muted procs st idx).oth = st.cur ∧
      (chainStep channels frames bypassed muted procs st idx).invoked
        = st.invoked ++ [idx] ∧
      (chainStep channels frames bypassed muted procs st idx).cur =
        (if gainActive (st.gains.getD idx (Smoother.new 1)) then
          (gainLoop channels frames 0
            (st.gains.getD idx (Smoother.new 1), procF st.cur st.oth)).2
        else procF st.cur st.oth)) ∧
    (bypassed.getD idx false = false → muted.getD idx false = false →
      procs.getD idx none = none →
      chainStep channels frames bypassed muted procs st idx = st) := by
  have hnot : ¬MAX_PLUGINS ≤ idx := Nat.not_le.2 hidx
  refine ⟨?_, fun hb => ?_, fun hb hm => ?_, fun procF hb hm hp => ?_, fun hb hm hp => ?_⟩
  · unfold chainRun
    rw [if_neg (by simp)]
  · cases hsrc : st.srcIsA
    · have hstep : chainStep channels frames bypassed muted procs st idx
          = { st with bufA := bypassCopy channels frames st.bufB st.bufA,
                      srcIsA := true } := by
        unfold chainStep
        rw [if_neg hnot, if_pos hb, if_neg (by rw [hsrc]; exact Bool.false_ne_true)]
      refine ⟨?_, ?_, ?_, fun ch i hch hci hco hfi hfo hi => ?_⟩
      · rw [hstep]
        rfl
      · rw [hstep]
        simp only [ChainState.cur, ChainState.oth, hsrc, Bool.false_eq_true, if_false,
          if_true]
      · rw [hstep]
      · simp only [ChainState.cur, ChainState.oth, hsrc, Bool.false_eq_true, if_false]
          at hci hco hfi hfo ⊢
        rw [hstep]
        simp only [ChainState.cur, if_true]
        exact chanGet_bypassCopy channels frames st.bufB st.bufA ch i hch hci hco
          hfi hfo hi
    · have hstep : chainStep channels frames bypassed muted procs st idx
          = { st with bufB := bypassCopy channels frames st.bufA st.bufB,
                      srcIsA := false } := by
        unfold chainStep
        rw [if_neg hnot, if_pos hb, if_pos hsrc]
      refine ⟨?_, ?_, ?_, fun ch i hch hci hco hfi hfo hi => ?_⟩
      · rw [hstep]
        rfl
      · rw [hstep]
        simp only [ChainState.cur, ChainState.oth, hsrc, Bool.false_eq_true, if_false,
          if_true]
      · rw [hstep]
      · simp only [ChainState.cur, ChainState.oth, hsrc, if_true] at hci hco hfi hfo ⊢
        rw [hstep]
        simp only [ChainState.cur, Bool.false_eq_true, if_false]
        exact chanGet_bypassCopy channels frames st.bufA st.bufB ch i hch hci hco
          hfi hfo hi
  · cases hsrc : st.srcIsA
    · have hstep : chainStep channels frames bypassed muted procs st idx
          = { st with bufB := muteZero channels frames st.bufB } := by
        unfold chainStep
        rw [if_neg hnot, if_neg (by rw [hb]; exact Bool.false_ne_true), if_pos hm,
          if_neg (by rw [hsrc]; exact Bool.false_ne_true)]
      refine ⟨?_, ?_, ?_, fun ch i hch hi => ?_⟩
      · rw [hstep]
        exact hsrc
      · rw [hstep]
        simp only [ChainState.oth, hsrc, Bool.false_eq_true, if_false]
      · rw [hstep]
      · rw [hstep]
        simp only [ChainState.cur, hsrc, Bool.false_eq_true, if_false]
        exact chanGet_muteZero channels frames st.bufB ch i hch hi
    · have hstep : chainStep channels frames bypassed muted procs st idx
          = { st with bufA := muteZero channels frames st.bufA } := by
        unfold chainStep
        rw [if_neg hnot, if_neg (by rw [hb]; exact Bool.false_ne_true), if_pos hm,
          if_pos hsrc]
      refine ⟨?_, ?_, ?_, fun ch i hch hi => ?_⟩
      · rw [hstep]
        exact hsrc
      · rw [hstep]
        simp only [ChainState.oth, hsrc, if_true]
      · rw [hstep]
      · rw [hstep]
        simp only [ChainState.cur, hsrc, if_true]
        exact chanGet_muteZero channels frames st.bufA ch i hch hi
  · cases hsrc : st.srcIsA
    · have hstep : chainStep channels frames bypassed muted procs st idx
          = (if gainActive (st.gains.getD idx (Smoother.new 1)) then
              { bufA := (gainLoop channels frames 0
                  (st.gains.getD idx (Smoother.new 1), procF st.bufB st.bufA)).2,
                bufB := st.bufB, srcIsA := true,
                gains := st.gains.set idx (gainLoop channels frames 0
                  (st.gains.getD idx (Smoother.new 1), procF st.bufB st.bufA)).1,
                invoked := st.invoked ++ [idx] }
            else
              { st with bufA := procF st.bufB st.bufA, srcIsA := true,
                        invoked := st.invoked ++ [idx] }) := by
        unfold chainStep
        rw [if_neg hnot, if_neg (by rw [hb]; exact Bool.false_ne_true),
          if_neg (by rw [hm]; exact Bool.false_ne_true), hp]
        dsimp only []
        rw [if_neg (by rw [hsrc]; exact Bool.false_ne_true)]
      have hco : st.cur = st.bufB := by
        simp [ChainState.cur, hsrc]
      have hoo : st.oth = st.bufA := by
        simp [ChainState.oth, hsrc]
      by_cases hg : gainActive (st.gains.getD idx (Smoother.new 1))
      · rw [if_pos hg] at hstep
        refine ⟨?_, ?_, ?_, ?_⟩
        · rw [hstep]
          rfl
        · rw [hstep, hco]
          simp [ChainState.oth]
        · rw [hstep]
        · rw [hstep, if_pos hg, hco, hoo]
          simp [ChainState.cur]
      · rw [if_neg hg] at hstep
        refine ⟨?_, ?_, ?_, ?_⟩
        · rw [hstep]
          rfl
        · rw [hstep, hco]
          simp [ChainState.oth]
        · rw [hstep]
        · rw [hstep, if_neg hg, hco, hoo]
          simp [ChainState.cur]
    · have hstep : chainStep channels frames bypassed muted procs st idx
          = (if gainActive (st.gains.getD idx (Smoother.new 1)) then
              { bufA := st.bufA,
                bufB := (gainLoop channels frames 0
                  (st.gains.getD idx (Smoother.new 1), procF st.bufA st.bufB)).2,
                srcIsA := false,
                gains := st.gains.set idx (gainLoop channels frames 0
                  (st.gains.getD idx (Smoother.new 1), procF st.bufA st.bufB)).1,
                invoked := st.invoked ++ [idx] }
            else
              { st with bufB := procF st.bufA st.bufB, srcIsA := false,
                        invoked := st.invoked ++ [idx] }) := by
        unfold chainStep
        rw [if_neg hnot, if_neg (by rw [hb]; exact Bool.false_ne_true),
          if_neg (by rw [hm]; exact Bool.false_ne_true), hp]
        dsimp only []
        rw [if_pos hsrc]
      have hco : st.cur = st.bufA := by
        simp [ChainState.cur, hsrc]
      have hoo : st.oth = st.bufB := by
        simp [ChainState.oth, hsrc]
      by_cases hg : gainActive (st.gains.getD idx (Smoother.new 1))
      · rw [if_pos hg] at hstep
        refine ⟨?_, ?_, ?_, ?_⟩
        · rw [hstep]
          rfl
        · rw [hstep, hco]
          simp [ChainState.oth]
        · rw [hstep]
        · rw [hstep, if_pos hg, hco, hoo]
          simp [ChainState.cur]
      · rw [if_neg hg] at hstep
        refine ⟨?_, ?_, ?_, ?_⟩
        · rw [hstep]
          rfl
        · rw [hstep, hco]
          simp [ChainState.oth]
        · rw [hstep]
        · rw [hstep, if_neg hg, hco, hoo]
          simp [ChainState.cur]
  · unfold chainStep
    rw [if_neg hnot, if_neg (by rw [hb]; exact Bool.false_ne_true),
      if_neg (by rw [hm]; exact Bool.false_ne_true), hp]

/-- Witness for C3: a two-channel, two-frame state with a muted slot 0: marker
kept, current buffer zeroed. -/
theorem chain_loop_semantics_witness :
    ((0:ℕ) < MAX_PLUGINS ∧
      ([false] : List Bool).getD 0 false = false ∧
      ([true] : List Bool).getD 0 false = true) ∧
    (chainStep 2 2 [false] [true] []
        { bufA := [[1, 2], [3, 4]], bufB := [[0, 0], [0, 0]], srcIsA := true,
          gains := [], invoked := [] } 0).srcIsA = true ∧
    chanGet (chainStep 2 2 [false] [true] []
        { bufA := [[1, 2], [3, 4]], bufB := [[0, 0], [0, 0]], srcIsA := true,
          gains := [], invoked := [] } 0).cur 0 0 = 0 := by
  have h := chain_loop_semantics 2 2 [false] [true] []
    { bufA := [[1, 2], [3, 4]], bufB := [[0, 0], [0, 0]], srcIsA := true,
      gains := [], invoked := [] } 0 1 [0] (by decide)
  have hmute := h.2.2.1 (by decide) (by decide)
  exact ⟨⟨by decide, by decide, by decide⟩, hmute.1, hmute.2.2.2 0 0 (by decide) (by decide)⟩

end Auralyn
